import Mathlib

/-!
Verification of the feature-engineering pipeline
(`src/preprocess_data/preprocessing_functions/steps.py`,
`src/preprocess_data/preprocessing_functions/config.py`,
`src/preprocess_data/feature_engineering_cli.py`).

A pandas DataFrame is modelled as an ordered list of named columns, each an
ordered list of cell values.  A cell is a rational number, a string, or the
missing marker (pandas NaN).  Machine floats are modelled by rationals; the
float32 downcast performed after scaling is absorbed into the abstract
fitted-scaler map, which is a parameter of the pipeline (the claims proved
here hold for every such map, so nothing is lost by leaving it abstract).

Python exceptions raised by the steps are modelled by the `PError` type:
`KeyError` from `validate_columns` becomes `schemaMissing` (the spec calls it
`SchemaError`), `KeyError` from `split_target` becomes `targetMissing`,
`ValueError` from `make_scaler` becomes `scalerKindError` and the
`ValueError` raised by `PolynomialFeatures` for a non-positive degree becomes
`degreeError` (the spec groups the last two as `ConfigError`).
-/

/-- A cell of a table: a number (rational model of int/float), a string,
or the missing-value marker (NaN). -/
inductive Val where
  | num (q : ℚ)
  | str (s : String)
  | na
deriving DecidableEq

/-- A named column. -/
structure Col where
  name : String
  values : List Val
deriving DecidableEq

/-- A DataFrame: an ordered list of named columns. -/
abbrev Table := List Col

/-- Errors raised by the pipeline steps (modelling the Python exceptions). -/
inductive PError where
  | schemaMissing (missingNumeric missingCategorical : List String)
  | targetMissing (col : String)
  | intCastError
  | typeError
  | scalerKindError (kind : String)
  | degreeError (degree : Int)
  | nonNumericData
  | keyErrorCol (col : String)
deriving DecidableEq

/-- Observable effects of one pipeline run, in order of occurrence. -/
inductive Event where
  | readBronze
  | impute
  | encode
  | scale
  | polyExpand
  | writeSilver
  | writeArtifacts
deriving DecidableEq

instance [DecidableEq ε] [DecidableEq α] : DecidableEq (Except ε α) := fun a b =>
  match a, b with
  | .error x, .error y => decidable_of_iff (x = y) (by simp)
  | .ok x, .ok y => decidable_of_iff (x = y) (by simp)
  | .error _, .ok _ => isFalse (fun h => by cases h)
  | .ok _, .error _ => isFalse (fun h => by cases h)

/-- Effect-free mapM over `Except` (explicit, to keep reduction simple). -/
def mapE (f : α → Except PError β) : List α → Except PError (List β)
  | [] => .ok []
  | x :: xs =>
    match f x with
    | .error e => .error e
    | .ok y =>
      match mapE f xs with
      | .error e => .error e
      | .ok ys => .ok (y :: ys)

/-- Effect-free mapM over `Option`. -/
def mapO (f : α → Option β) : List α → Option (List β)
  | [] => some []
  | x :: xs =>
    match f x with
    | none => none
    | some y =>
      match mapO f xs with
      | none => none
      | some ys => some (y :: ys)

/-- Concatenation of a list of lists. -/
def flat : List (List α) → List α
  | [] => []
  | l :: ls => l ++ flat ls

/-- First column with the given name (pandas `df[name]`). -/
def getCol (t : Table) (name : String) : Option Col :=
  t.find? (fun c => c.name == name)

/-- Whether some column has the given name (`name in df.columns`). -/
def hasCol (t : Table) (name : String) : Bool :=
  t.any (fun c => c.name == name)

/-- All columns share this row count. -/
def WF (n : Nat) (t : Table) : Prop := ∀ c ∈ t, c.values.length = n

instance (n : Nat) (t : Table) : Decidable (WF n t) :=
  inferInstanceAs (Decidable (∀ c ∈ t, c.values.length = n))

/-- The numeric part of a cell, if it is a number. -/
def toQ : Val → Option ℚ
  | .num q => some q
  | _ => none

/-- `NUMERIC_COLS` from `steps.py`: the declared numeric schema. -/
def NUMERIC_COLS : List String :=
  ["person_age", "person_income", "person_emp_length", "loan_amnt",
   "loan_int_rate", "loan_percent_income", "cb_person_cred_hist_length"]

/-- `CATEGORICAL_COLS` from `steps.py`: the declared categorical schema. -/
def CATEGORICAL_COLS : List String :=
  ["person_home_ownership", "loan_intent", "loan_grade",
   "cb_person_default_on_file"]

/-- `PreprocessConfig` from `config.py` (paths kept as plain strings). -/
structure PreprocessConfig where
  input : String
  output : String
  scaler : String := "standard"
  target_col : String := "loan_status"
  poly_degree : Int := 2
  save_artifacts_dir : Option String := none

/-- Truncation toward zero, the behaviour of `astype(int)` on floats
(the denominator of a rational is positive, so truncated division of the
numerator by the denominator is exactly truncation toward zero). -/
def truncQ (q : ℚ) : Int := q.num.tdiv q.den

/-- ASCII whitespace stripping from the front of a character list. -/
def dropWs : List Char → List Char
  | [] => []
  | c :: cs =>
    if c = ' ' ∨ c = '\t' ∨ c = '\n' ∨ c = '\r' then dropWs cs else c :: cs

/-- Strip whitespace from both ends, as Python `int(str)` tolerates. -/
def trimChars (l : List Char) : List Char :=
  (dropWs ((dropWs l).reverse)).reverse

/-- Accumulate a decimal digit string; `none` on a non-digit. -/
def digitsToNat : Nat → List Char → Option Nat
  | acc, [] => some acc
  | acc, c :: cs =>
    if '0' ≤ c ∧ c ≤ '9' then digitsToNat (10 * acc + (c.toNat - 48)) cs
    else none

/-- A nonempty all-digit string, as a number. -/
def parseDigits : List Char → Option Nat
  | [] => none
  | c :: cs => digitsToNat 0 (c :: cs)

/-- Python `int(s)` on a string: optional surrounding whitespace, optional
sign, then decimal digits; anything else raises. -/
def parseIntPy (s : String) : Option Int :=
  match trimChars s.data with
  | '-' :: cs => (parseDigits cs).map (fun n => -(n : Int))
  | '+' :: cs => (parseDigits cs).map (fun n => (n : Int))
  | cs => (parseDigits cs).map (fun n => (n : Int))

/-- One cell of `Series.astype(int)`: numbers are truncated toward zero,
integer-literal strings are parsed, NaN and other strings raise
(`IntCastingNaNError` / `ValueError`). -/
def castVal : Val → Except PError Val
  | .num q => .ok (.num (truncQ q))
  | .str s =>
    match parseIntPy s with
    | some n => .ok (.num n)
    | none => .error .intCastError
  | .na => .error .intCastError

/-- `split_target` from `steps.py`: check presence, cast the target column
with `astype(int)`, and drop it from the feature table. -/
def split_target (t : Table) (target : String) :
    Except PError (Table × List Val) :=
  match t.find? (fun c => c.name == target) with
  | none => .error (.targetMissing target)
  | some c =>
    match mapE castVal c.values with
    | .error e => .error e
    | .ok y => .ok (t.filter (fun c2 => !(c2.name == target)), y)

/-- `validate_columns` from `steps.py`: collect every missing declared
numeric and categorical name and raise once, naming all of them. -/
def validate_columns (t : Table) (numC catC : List String) :
    Except PError Unit :=
  let missN := numC.filter (fun n => !(hasCol t n))
  let missC := catC.filter (fun n => !(hasCol t n))
  if missN = [] ∧ missC = [] then .ok () else .error (.schemaMissing missN missC)

/-- Ascending insertion of a rational into a sorted list. -/
def insQ (x : ℚ) : List ℚ → List ℚ
  | [] => [x]
  | y :: ys => if x ≤ y then x :: y :: ys else y :: insQ x ys

/-- Insertion sort, ascending. -/
def sortQ (l : List ℚ) : List ℚ := l.foldr insQ []

/-- pandas `Series.median` over the non-missing numeric entries: sort, take
the middle entry, or the mean of the two middle entries. -/
def medianQ (l : List ℚ) : ℚ :=
  let s := sortQ l
  let n := s.length
  if n % 2 = 1 then s.getD (n / 2) 0
  else (s.getD (n / 2 - 1) 0 + s.getD (n / 2) 0) / 2

/-- One column of `impute_numerics`.  A column with some missing entry is
filled with the median of its non-missing entries; pandas `median` skips NaN,
raises `TypeError` on string data, and returns NaN on an all-NaN column, in
which case `fillna(NaN)` leaves the column unchanged. -/
def imputeCol (vs : List Val) : Except PError (List Val) :=
  if vs.any (fun v => v == Val.na) then
    match mapO toQ (vs.filter (fun v => !(v == Val.na))) with
    | none => .error .typeError
    | some qs =>
      let fill : Val := match qs with | [] => Val.na | _ :: _ => Val.num (medianQ qs)
      .ok (vs.map (fun v => if v == Val.na then fill else v))
  else .ok vs

/-- `impute_numerics` from `steps.py`.  The source loop assigns one column
per iteration and each iteration reads only that column, so it equals a
per-column map; the first pass below reproduces the loop's first raised
error (`KeyError` for an absent column, `TypeError` from `median`). -/
def imputeColD (c : Col) : Col :=
  match imputeCol c.values with
  | .ok vs => ⟨c.name, vs⟩
  | .error _ => c

def impute_numerics (t : Table) (numC : List String) : Except PError Table :=
  match mapE (fun n =>
      match t.find? (fun c => c.name == n) with
      | none => .error (.keyErrorCol n)
      | some c => imputeCol c.values) numC with
  | .error e => .error e
  | .ok _ =>
    .ok (t.map (fun c => if c.name ∈ numC then imputeColD c else c))

/-- Lexicographic comparison of character lists by code point: the order in
which Python (and hence pandas) compares strings. -/
def leChars : List Char → List Char → Bool
  | [], _ => true
  | _ :: _, [] => false
  | a :: as, b :: bs => if a = b then leChars as bs else decide (a < b)

/-- Total order used to sort observed categories.  pandas sorts the distinct
values of a homogeneous object column (all strings, or all numbers); the
cross-kind cases below are never exercised by such columns. -/
def valLe (a b : Val) : Prop :=
  match a, b with
  | .num x, .num y => x ≤ y
  | .num _, _ => True
  | .str _, .num _ => False
  | .str x, .str y => leChars x.data y.data = true
  | .str _, .na => True
  | .na, .na => True
  | .na, _ => False

instance : DecidableRel valLe := fun a b =>
  match a, b with
  | .num x, .num y => inferInstanceAs (Decidable (x ≤ y))
  | .num _, .str _ => inferInstanceAs (Decidable True)
  | .num _, .na => inferInstanceAs (Decidable True)
  | .str _, .num _ => inferInstanceAs (Decidable False)
  | .str x, .str y => inferInstanceAs (Decidable (leChars x.data y.data = true))
  | .str _, .na => inferInstanceAs (Decidable True)
  | .na, .num _ => inferInstanceAs (Decidable False)
  | .na, .str _ => inferInstanceAs (Decidable False)
  | .na, .na => inferInstanceAs (Decidable True)

/-- The distinct non-missing values of a column, sorted ascending: the
category levels pandas derives for `get_dummies` (NaN is not a level). -/
def catsOf (vs : List Val) : List Val :=
  List.insertionSort valLe ((vs.filter (fun v => !(v == Val.na))).dedup)

/-- Rendering of a category value into an indicator-column name, after
Python `str`.  (Integral numbers print without a fractional part; the
rendering of non-integral numeric categories is approximate, which no claim
depends on.) -/
def valStr : Val → String
  | .str s => s
  | .num q => if q.den = 1 then toString q.num else toString q
  | .na => "nan"

/-- The indicator columns `get_dummies` derives from one categorical column
with `drop_first=True, dtype=int`: one 0/1 column per category level except
the first, named by the source name, an underscore, and the level. -/
def dummyCols (c : Col) : List Col :=
  ((catsOf c.values).drop 1).map (fun v =>
    ⟨c.name ++ "_" ++ valStr v,
     c.values.map (fun x => if x == v then Val.num 1 else Val.num 0)⟩)

/-- The columns named by `names`, in that order (`df[names]`). -/
def extractCols (t : Table) (names : List String) : Except PError (List Col) :=
  mapE (fun n =>
    match t.find? (fun c => c.name == n) with
    | none => .error (.keyErrorCol n)
    | some c => .ok c) names

/-- `one_hot_encode` from `steps.py`: `pd.get_dummies(df, columns=cats,
drop_first=True, dtype=int)`.  The untouched columns keep their relative
order and come first; the indicator groups follow, one group per encoded
column, in the order of `catC`. -/
def one_hot_encode (t : Table) (catC : List String) : Except PError Table :=
  match extractCols t catC with
  | .error e => .error e
  | .ok cs =>
    .ok (t.filter (fun c => !(c.name ∈ catC : Bool)) ++ flat (cs.map dummyCols))

/-- Scaler strategies accepted by `make_scaler`. -/
inductive ScalerKind where
  | standard
  | minmax
deriving DecidableEq

/-- `make_scaler` from `steps.py`: branch on the requested kind, raising
`ValueError` for anything but `standard` and `minmax`. -/
def make_scaler (kind : String) : Except PError ScalerKind :=
  if kind = "standard" then .ok .standard
  else if kind = "minmax" then .ok .minmax
  else .error (.scalerKindError kind)

/-- `scale_numerics` from `steps.py`: replace the values of the declared
numeric columns, in place, by the output of the fitted scaler on the numeric
slice; every other column is untouched.  The numeric map `f` (fit plus
transform plus the float32 downcast) is a parameter. -/
def scale_numerics (t : Table) (numC : List String)
    (f : List (List Val) → List (List Val)) : Except PError Table :=
  match extractCols t numC with
  | .error e => .error e
  | .ok sub =>
    let pairs := numC.zip (f (sub.map (fun c => c.values)))
    .ok (t.map (fun c =>
      match pairs.find? (fun p => p.1 == c.name) with
      | some p => ⟨c.name, p.2⟩
      | none => c))

/-- One step of size-(k+1) combinations with repetition: given the size-k
generator `f`, produce, for each suffix of the column list, the combinations
that start with the suffix's head. -/
def cwrStep (f : List α → List (List α)) : List α → List (List α)
  | [] => []
  | x :: rest => (f (x :: rest)).map (fun combo => x :: combo) ++ cwrStep f rest

/-- `itertools.combinations_with_replacement`: all nondecreasing selections
of `k` elements from the list, in lexicographic order, as used by
`PolynomialFeatures` to enumerate the monomials of one total degree. -/
def cwr : Nat → List α → List (List α)
  | 0, _ => [[]]
  | k + 1, xs => cwrStep (cwr k) xs

/-- All monomials of total degree 1 up to `deg` (no bias term), ordered by
degree and lexicographically inside one degree, as enumerated by
`PolynomialFeatures(degree=deg, include_bias=False)`. -/
def monomials (xs : List α) : Nat → List (List α)
  | 0 => []
  | n + 1 => monomials xs n ++ cwr (n + 1) xs

/-- Adjacent runs with multiplicities, for exponent grouping in feature
names. -/
def expRuns : List String → List (String × Nat)
  | [] => []
  | s :: rest =>
    match expRuns rest with
    | [] => [(s, 1)]
    | (t, k) :: more =>
      if s = t then (s, k + 1) :: more else (s, 1) :: (t, k) :: more

/-- One factor of a feature name: the column name, with a caret and the
exponent when it exceeds one. -/
def powName (p : String × Nat) : String :=
  if p.2 = 1 then p.1 else p.1 ++ "^" ++ toString p.2

/-- `PolynomialFeatures.get_feature_names_out` for one monomial: the
space-separated factors. -/
def monomialName (names : List String) : String :=
  String.intercalate " " ((expRuns names).map powName)

/-- Pointwise product of a nonempty family of equal-length columns. -/
def prodCols : List (List ℚ) → List ℚ
  | [] => []
  | qs :: rest =>
    match rest with
    | [] => qs
    | _ :: _ => List.zipWith (fun a b => a * b) qs (prodCols rest)

/-- The numeric entries of a column; `PolynomialFeatures` validates its
input and raises `ValueError` on strings or NaN. -/
def colQs (c : Col) : Except PError (String × List ℚ) :=
  match mapO toQ c.values with
  | none => .error .nonNumericData
  | some qs => .ok (c.name, qs)

/-- The monomial columns produced by `PolynomialFeatures` on the numeric
slice `subQ`, up to total degree `d`: one column per monomial, named by
`get_feature_names_out`, valued by the pointwise product. -/
def polyColsOf (subQ : List (String × List ℚ)) (d : Nat) : Table :=
  (monomials subQ d).map (fun combo =>
    ⟨monomialName (combo.map (fun p => p.1)),
     (prodCols (combo.map (fun p => p.2))).map Val.num⟩)

/-- `poly_expand` from `steps.py`: `PolynomialFeatures(degree,
include_bias=False)` over the declared numeric slice (a non-positive degree
raises `ValueError`), then drop the original numeric columns and append the
monomial columns after the untouched remainder. -/
def poly_expand (t : Table) (numC : List String) (degree : Int) :
    Except PError Table :=
  if degree ≤ 0 then .error (.degreeError degree)
  else
    match extractCols t numC with
    | .error e => .error e
    | .ok sub =>
      match mapE colQs sub with
      | .error e => .error e
      | .ok subQ =>
        .ok (t.filter (fun c => !(c.name ∈ numC : Bool)) ++
          polyColsOf subQ degree.toNat)

/-- `X[target] = y`: replace the values of an existing column in place, or
append a new column at the end. -/
def setCol (t : Table) (name : String) (vs : List Val) : Table :=
  if hasCol t name then
    t.map (fun c => if c.name == name then ⟨name, vs⟩ else c)
  else t ++ [⟨name, vs⟩]

/-- `run_preprocess` from `feature_engineering_cli.py`, over an in-memory
bronze table.  The returned event list records, in order, the observable
effects: the bronze read, each transformation stage that was started, the
silver write, and the artifact write.  `fitScaler` abstracts the numeric
action of the fitted sklearn scaler of each kind. -/
def run_preprocess (cfg : PreprocessConfig) (bronze : Table)
    (fitScaler : ScalerKind → List (List Val) → List (List Val)) :
    Except PError Table × List Event :=
  match split_target bronze cfg.target_col with
  | .error e => (.error e, [.readBronze])
  | .ok (X, y) =>
    match validate_columns X NUMERIC_COLS CATEGORICAL_COLS with
    | .error e => (.error e, [.readBronze])
    | .ok _ =>
      match impute_numerics X NUMERIC_COLS with
      | .error e => (.error e, [.readBronze, .impute])
      | .ok X1 =>
        match one_hot_encode X1 CATEGORICAL_COLS with
        | .error e => (.error e, [.readBronze, .impute, .encode])
        | .ok X2 =>
          match make_scaler cfg.scaler with
          | .error e => (.error e, [.readBronze, .impute, .encode])
          | .ok kind =>
            match scale_numerics X2 NUMERIC_COLS (fitScaler kind) with
            | .error e => (.error e, [.readBronze, .impute, .encode, .scale])
            | .ok X3 =>
              match poly_expand X3 NUMERIC_COLS cfg.poly_degree with
              | .error e =>
                (.error e, [.readBronze, .impute, .encode, .scale, .polyExpand])
              | .ok X4 =>
                (.ok (setCol X4 cfg.target_col y),
                 [.readBronze, .impute, .encode, .scale, .polyExpand,
                  .writeSilver] ++
                 (match cfg.save_artifacts_dir with
                  | some _ => [.writeArtifacts]
                  | none => []))

/-- Whether a cell is a string. -/
def isStr : Val → Bool
  | .str _ => true
  | _ => false

/-- Whether an error is the Validator's missing-columns error. -/
def isSchemaMissing : PError → Bool
  | .schemaMissing _ _ => true
  | _ => false

/-! ### Concrete inputs used by witnesses and counterexamples -/

/-- A one-row numeric column holding the value 1. -/
def rowNum (n : String) : Col := ⟨n, [Val.num 1]⟩

/-- A one-row categorical column holding the label "a". -/
def rowCat (n : String) : Col := ⟨n, [Val.str "a"]⟩

/-- A scaler model that returns the numeric slice unchanged. -/
def fId : ScalerKind → List (List Val) → List (List Val) := fun _ cols => cols

/-- A full one-row bronze table matching the declared schema. -/
def bronzeW : Table :=
  NUMERIC_COLS.map rowNum ++ CATEGORICAL_COLS.map rowCat ++
    [⟨"loan_status", [Val.num 1]⟩]

/-- The feature part of `bronzeW`, after the target is split off. -/
def featW : Table := NUMERIC_COLS.map rowNum ++ CATEGORICAL_COLS.map rowCat

/-- A configuration with degree-1 expansion. -/
def cfgW : PreprocessConfig :=
  { input := "bronze.parquet", output := "silver.parquet", poly_degree := 1 }

/-- A configuration requesting an unsupported scaler kind. -/
def cfgRobust : PreprocessConfig :=
  { input := "bronze.parquet", output := "silver.parquet", scaler := "robust" }

/-- A configuration requesting another unsupported scaler kind. -/
def cfgMaxabs : PreprocessConfig :=
  { input := "bronze.parquet", output := "silver.parquet", scaler := "maxabs" }

/-- A configuration with a zero expansion degree. -/
def cfgZero : PreprocessConfig :=
  { input := "bronze.parquet", output := "silver.parquet", poly_degree := 0 }

/-- A default configuration. -/
def cfgD : PreprocessConfig :=
  { input := "bronze.parquet", output := "silver.parquet" }

/-- A one-row bronze table whose target cell holds the non-integer 1/2. -/
def bronzeHalf : Table :=
  NUMERIC_COLS.map rowNum ++ CATEGORICAL_COLS.map rowCat ++
    [⟨"loan_status", [Val.num (Rat.mk' 1 2)]⟩]

/-- A declared-schema table whose `person_age` column is entirely missing. -/
def tblAllNaAge : Table :=
  ⟨"person_age", [Val.na, Val.na]⟩ ::
    (NUMERIC_COLS.drop 1).map (fun n => ⟨n, [Val.num 1, Val.num 2]⟩)

/-- A declared-schema table whose `loan_amnt` column is entirely missing. -/
def tblAllNaAmnt : Table :=
  (NUMERIC_COLS.take 3).map (fun n => ⟨n, [Val.num 2]⟩) ++
    (⟨"loan_amnt", [Val.na]⟩ :: (NUMERIC_COLS.drop 4).map (fun n => ⟨n, [Val.num 2]⟩))

/-- A bronze table that lacks `loan_grade` and has a missing target cell. -/
def bronzeNoGrade : Table :=
  NUMERIC_COLS.map rowNum ++
    [rowCat "person_home_ownership", rowCat "loan_intent",
     rowCat "cb_person_default_on_file", ⟨"loan_status", [Val.na]⟩]

/-- A bronze table that lacks `loan_grade` but has a clean target. -/
def bronzeNoGrade2 : Table :=
  NUMERIC_COLS.map rowNum ++
    [rowCat "person_home_ownership", rowCat "loan_intent",
     rowCat "cb_person_default_on_file", ⟨"loan_status", [Val.num 0]⟩]

/-- The five-row categorical column of the spec's end-to-end scenario. -/
def homeCol : Col :=
  ⟨"home", [Val.str "rent", Val.str "own", Val.str "rent", Val.str "mortgage",
    Val.str "own"]⟩

/-- A five-row table with the scenario's categorical column and one numeric
column. -/
def tblHome : Table :=
  [homeCol, ⟨"x", [Val.num 1, Val.num 2, Val.num 3, Val.num 4, Val.num 5]⟩]

/-! ### Generic lemmas about the embedding's list combinators -/

theorem mapE_ok_iff {f : α → Except PError β} :
    ∀ {l : List α} {l2 : List β},
      mapE f l = .ok l2 ↔ List.Forall₂ (fun x y => f x = .ok y) l l2 := by
  intro l
  induction l with
  | nil =>
    intro l2
    constructor
    · intro h
      cases h
      exact List.Forall₂.nil
    · intro h
      cases h
      rfl
  | cons x xs ih =>
    intro l2
    constructor
    · intro h
      unfold mapE at h
      cases hx : f x with
      | error e => rw [hx] at h; cases h
      | ok y =>
        rw [hx] at h
        cases hxs : mapE f xs with
        | error e => rw [hxs] at h; cases h
        | ok ys =>
          rw [hxs] at h
          cases h
          exact List.Forall₂.cons hx (ih.mp hxs)
    · intro h
      cases h with
      | cons hx hxs =>
        unfold mapE
        rw [hx, ih.mpr hxs]

theorem mapE_ok_length {f : α → Except PError β} {l : List α} {l2 : List β}
    (h : mapE f l = .ok l2) : l2.length = l.length :=
  (List.Forall₂.length_eq (mapE_ok_iff.mp h)).symm

theorem mapE_ok_of_mem {f : α → Except PError β} {l : List α} {l2 : List β}
    (h : mapE f l = .ok l2) : ∀ x ∈ l, ∃ y ∈ l2, f x = .ok y := by
  have h2 := mapE_ok_iff.mp h
  clear h
  induction h2 with
  | nil => intro x hx; cases hx
  | cons hxy _ ih =>
    intro x hx
    rcases List.mem_cons.mp hx with h | h
    · subst h
      exact ⟨_, List.mem_cons_self _ _, hxy⟩
    · obtain ⟨y, hy, hfy⟩ := ih x h
      exact ⟨y, List.mem_cons_of_mem _ hy, hfy⟩

theorem mapE_mem_of_ok {f : α → Except PError β} {l : List α} {l2 : List β}
    (h : mapE f l = .ok l2) : ∀ y ∈ l2, ∃ x ∈ l, f x = .ok y := by
  have h2 := mapE_ok_iff.mp h
  clear h
  induction h2 with
  | nil => intro y hy; cases hy
  | cons hxy _ ih =>
    intro y hy
    rcases List.mem_cons.mp hy with h | h
    · subst h
      exact ⟨_, List.mem_cons_self _ _, hxy⟩
    · obtain ⟨x, hx, hfx⟩ := ih y h
      exact ⟨x, List.mem_cons_of_mem _ hx, hfx⟩

theorem mapO_some_iff {f : α → Option β} :
    ∀ {l : List α} {l2 : List β},
      mapO f l = some l2 ↔ List.Forall₂ (fun x y => f x = some y) l l2 := by
  intro l
  induction l with
  | nil =>
    intro l2
    constructor
    · intro h; cases h; exact List.Forall₂.nil
    · intro h; cases h; rfl
  | cons x xs ih =>
    intro l2
    constructor
    · intro h
      unfold mapO at h
      cases hx : f x with
      | none => rw [hx] at h; cases h
      | some y =>
        rw [hx] at h
        cases hxs : mapO f xs with
        | none => rw [hxs] at h; cases h
        | some ys =>
          rw [hxs] at h
          cases h
          exact List.Forall₂.cons hx (ih.mp hxs)
    · intro h
      cases h with
      | cons hx hxs =>
        unfold mapO
        rw [hx, ih.mpr hxs]

theorem mapO_some_length {f : α → Option β} {l : List α} {l2 : List β}
    (h : mapO f l = some l2) : l2.length = l.length :=
  (List.Forall₂.length_eq (mapO_some_iff.mp h)).symm

theorem flat_singleton (l : List α) : flat [l] = l := by
  show l ++ flat [] = l
  simp [flat]

/-! ### Lemmas about column lookup -/

theorem find?_name_map (g : Col → Col) (hg : ∀ c, (g c).name = c.name)
    (name : String) :
    ∀ t : Table,
      (t.map g).find? (fun c => c.name == name) =
        (t.find? (fun c => c.name == name)).map g := by
  intro t
  induction t with
  | nil => rfl
  | cons c rest ih =>
    by_cases h : c.name = name
    · have hgc : (g c).name = name := by rw [hg c, h]
      simp [List.find?_cons_of_pos, h, hgc]
    · have hgc : ¬ ((g c).name = name) := by rw [hg c]; exact h
      simp only [List.map_cons]
      rw [List.find?_cons_of_neg _ (by simpa using hgc),
        List.find?_cons_of_neg _ (by simpa using h)]
      exact ih

theorem find?_filter_of_imp (p q : Col → Bool)
    (himp : ∀ c, p c = true → q c = true) :
    ∀ t : Table, (t.filter q).find? p = t.find? p := by
  intro t
  induction t with
  | nil => rfl
  | cons c rest ih =>
    by_cases hq : q c = true
    · by_cases hp : p c = true
      · simp [List.filter_cons, hq, List.find?_cons_of_pos, hp]
      · simp only [List.filter_cons, hq, if_true]
        rw [List.find?_cons_of_neg _ (by simpa using hp),
          List.find?_cons_of_neg _ (by simpa using hp)]
        exact ih
    · have hp : ¬ p c = true := fun h => hq (himp c h)
      have hqf : q c = false := Bool.eq_false_iff.mpr hq
      simp only [List.filter_cons, hqf, Bool.false_eq_true, if_false]
      rw [ih, List.find?_cons_of_neg _ (by simpa using hp)]

theorem getCol_mem {t : Table} {name : String} {c : Col}
    (h : getCol t name = some c) : c ∈ t :=
  List.mem_of_find?_eq_some h

theorem getCol_name {t : Table} {name : String} {c : Col}
    (h : getCol t name = some c) : c.name = name := by
  have := List.find?_some h
  simpa using this

theorem getCol_append_left {t1 t2 : Table} {name : String} {c : Col}
    (h : getCol t1 name = some c) : getCol (t1 ++ t2) name = some c := by
  unfold getCol at h ⊢
  simp [List.find?_append, h]

theorem hasCol_false_getCol {t : Table} {name : String}
    (h : hasCol t name = false) : getCol t name = none := by
  unfold getCol
  apply List.find?_eq_none.mpr
  intro c hc
  intro hb
  have : c.name = name := by simpa using hb
  have : hasCol t name = true := by
    unfold hasCol
    exact List.any_eq_true.mpr ⟨c, hc, by simpa using this⟩
  rw [this] at h
  cases h

theorem hasCol_filter_false {t : Table} {name : String} (p : Col → Bool)
    (h : hasCol t name = false) : hasCol (t.filter p) name = false := by
  unfold hasCol at h ⊢
  rcases hh : (t.filter p).any (fun c => c.name == name) with _ | _
  · rfl
  · obtain ⟨c, hc, hcn⟩ := List.any_eq_true.mp hh
    have : t.any (fun c => c.name == name) = true :=
      List.any_eq_true.mpr ⟨c, (List.mem_filter.mp hc).1, hcn⟩
    rw [this] at h
    cases h

/-! ### Row-count lemmas -/

theorem WF_filter {n : Nat} {t : Table} (p : Col → Bool) (h : WF n t) :
    WF n (t.filter p) := fun c hc => h c (List.mem_filter.mp hc).1

theorem WF_append {n : Nat} {t1 t2 : Table} (h1 : WF n t1) (h2 : WF n t2) :
    WF n (t1 ++ t2) := by
  intro c hc
  rcases List.mem_append.mp hc with h | h
  · exact h1 c h
  · exact h2 c h

/-! ### Lemmas about the scaling step -/

theorem zip_find?_none {numC : List String} {l : List (List Val)}
    {name : String} (h : ¬ name ∈ numC) :
    (numC.zip l).find? (fun p => p.1 == name) = none := by
  apply List.find?_eq_none.mpr
  intro p hp hb
  have h1 : p.1 ∈ numC := (List.of_mem_zip hp).1
  have h2 : p.1 = name := by simpa using hb
  rw [h2] at h1
  exact h h1

theorem scale_ok_inv {t : Table} {numC : List String}
    {f : List (List Val) → List (List Val)} {t1 : Table}
    (h : scale_numerics t numC f = .ok t1) :
    ∃ sub, extractCols t numC = .ok sub ∧
      t1 = t.map (fun c =>
        match (numC.zip (f (sub.map (fun c => c.values)))).find?
            (fun p => p.1 == c.name) with
        | some p => ⟨c.name, p.2⟩
        | none => c) := by
  unfold scale_numerics at h
  cases hx : extractCols t numC with
  | error e => rw [hx] at h; cases h
  | ok sub =>
    rw [hx] at h
    cases h
    exact ⟨sub, rfl, rfl⟩

theorem scale_pass_through {t : Table} {numC : List String}
    {f : List (List Val) → List (List Val)} {t1 : Table} {name : String}
    {c : Col} (hn : ¬ name ∈ numC) (hc : getCol t name = some c)
    (h : scale_numerics t numC f = .ok t1) : getCol t1 name = some c := by
  obtain ⟨sub, -, ht1⟩ := scale_ok_inv h
  subst ht1
  unfold getCol at hc ⊢
  rw [find?_name_map _ (fun c0 => by
      cases hfind : (numC.zip (f (sub.map (fun c => c.values)))).find?
          (fun p => p.1 == c0.name) <;> simp [hfind]) name t, hc]
  have hname : c.name = name := by simpa using List.find?_some hc
  simp only [Option.map_some']
  rw [hname, zip_find?_none hn]

theorem scale_WF {t : Table} {numC : List String}
    {f : List (List Val) → List (List Val)} {t1 : Table} {n : Nat}
    (hwf : WF n t)
    (hf : ∀ vs ∈ f ((extractCols t numC).toOption.elim [] (fun sub => sub.map (fun c => c.values))), vs.length = n)
    (h : scale_numerics t numC f = .ok t1) : WF n t1 := by
  obtain ⟨sub, hsub, ht1⟩ := scale_ok_inv h
  subst ht1
  intro c hc
  obtain ⟨c0, hc0, hceq⟩ := List.mem_map.mp hc
  rw [hsub] at hf
  cases hfind : (numC.zip (f (sub.map (fun c => c.values)))).find?
      (fun p => p.1 == c0.name) with
  | none =>
    rw [hfind] at hceq
    subst hceq
    exact hwf c0 hc0
  | some p =>
    rw [hfind] at hceq
    subst hceq
    have hp := List.mem_of_find?_eq_some hfind
    have h2 : p.2 ∈ f (sub.map (fun c => c.values)) := (List.of_mem_zip hp).2
    exact hf p.2 h2

/-! ### Lemmas about the polynomial-expansion step -/

theorem poly_expand_nonpos {t : Table} {numC : List String} {degree : Int}
    (h : degree ≤ 0) : poly_expand t numC degree = .error (.degreeError degree) := by
  unfold poly_expand
  rw [if_pos h]

theorem poly_ok_inv {t : Table} {numC : List String} {degree : Int}
    {t2 : Table} (h : poly_expand t numC degree = .ok t2) :
    0 < degree ∧ ∃ sub subQ, extractCols t numC = .ok sub ∧
      mapE colQs sub = .ok subQ ∧
      t2 = t.filter (fun c => !(c.name ∈ numC : Bool)) ++
        polyColsOf subQ degree.toNat := by
  unfold poly_expand at h
  by_cases hd : degree ≤ 0
  · rw [if_pos hd] at h; cases h
  · rw [if_neg hd] at h
    refine ⟨by omega, ?_⟩
    cases hx : extractCols t numC with
    | error e => rw [hx] at h; cases h
    | ok sub =>
      rw [hx] at h
      dsimp only at h
      cases hq : mapE colQs sub with
      | error e => rw [hq] at h; cases h
      | ok subQ =>
        rw [hq] at h
        cases h
        exact ⟨sub, subQ, rfl, hq, rfl⟩

theorem poly_pass_through {t : Table} {numC : List String} {degree : Int}
    {t2 : Table} {name : String} {c : Col} (hn : ¬ name ∈ numC)
    (hc : getCol t name = some c) (h : poly_expand t numC degree = .ok t2) :
    getCol t2 name = some c := by
  obtain ⟨-, sub, subQ, -, -, ht2⟩ := poly_ok_inv h
  subst ht2
  apply getCol_append_left
  unfold getCol at hc ⊢
  rw [find?_filter_of_imp _ _ ?_ t, hc]
  intro c0 hp
  have : c0.name = name := by simpa using hp
  simp [this, hn]

/-! ### Counting the monomials -/

theorem cwr_length {α : Type} : ∀ (k : Nat) (xs : List α),
    (cwr k xs).length = Nat.multichoose xs.length k := by
  intro k
  induction k with
  | zero =>
    intro xs
    simp [cwr, Nat.multichoose_zero_right]
  | succ k ih =>
    intro xs
    induction xs with
    | nil =>
      show (cwrStep (cwr k) ([] : List α)).length = _
      simp [cwrStep, Nat.multichoose_zero_succ]
    | cons x rest ih2 =>
      show (cwrStep (cwr k) (x :: rest)).length = _
      have hstep : cwrStep (cwr k) (x :: rest) =
          (cwr k (x :: rest)).map (fun combo => x :: combo) ++
            cwrStep (cwr k) rest := rfl
      have h2 : (cwrStep (cwr k) rest).length =
          Nat.multichoose rest.length (k + 1) := ih2
      rw [hstep, List.length_append, List.length_map, ih (x :: rest), h2,
        List.length_cons, Nat.multichoose_succ_succ]
      omega

theorem cwr_mem {α : Type} : ∀ (k : Nat) (xs : List α) (combo : List α),
    combo ∈ cwr k xs → combo.length = k ∧ ∀ a ∈ combo, a ∈ xs := by
  intro k
  induction k with
  | zero =>
    intro xs combo h
    have : combo = [] := by simpa [cwr] using h
    subst this
    exact ⟨rfl, fun a ha => absurd ha (List.not_mem_nil a)⟩
  | succ k ih =>
    intro xs
    induction xs with
    | nil =>
      intro combo h
      have : combo ∈ ([] : List (List α)) := h
      cases this
    | cons x rest ih2 =>
      intro combo h
      have hstep : cwr (k + 1) (x :: rest) =
          (cwr k (x :: rest)).map (fun combo => x :: combo) ++
            cwrStep (cwr k) rest := rfl
      rw [hstep] at h
      rcases List.mem_append.mp h with h | h
      · obtain ⟨c0, hc0, hceq⟩ := List.mem_map.mp h
        obtain ⟨hlen, hmem⟩ := ih (x :: rest) c0 hc0
        subst hceq
        refine ⟨by simp [hlen], ?_⟩
        intro a ha
        rcases List.mem_cons.mp ha with h | h
        · subst h; exact List.mem_cons_self _ _
        · exact hmem a h
      · obtain ⟨hlen, hmem⟩ := ih2 combo h
        exact ⟨hlen, fun a ha => List.mem_cons_of_mem _ (hmem a ha)⟩

theorem monomials_length {α : Type} (xs : List α) :
    ∀ n : Nat, (monomials xs n).length + 1 = (xs.length + n).choose n := by
  intro n
  induction n with
  | zero => simp [monomials]
  | succ n ih =>
    show (monomials xs n ++ cwr (n + 1) xs).length + 1 = _
    rw [List.length_append, cwr_length]
    have hmc : Nat.multichoose xs.length (n + 1) =
        (xs.length + n).choose (n + 1) := by
      rw [Nat.multichoose_eq]
      have h1 : xs.length + (n + 1) - 1 = xs.length + n := by omega
      rw [h1]
    have hp : (xs.length + (n + 1)).choose (n + 1) =
        (xs.length + n).choose n + (xs.length + n).choose (n + 1) := by
      have : xs.length + (n + 1) = (xs.length + n) + 1 := by omega
      rw [this, Nat.choose_succ_succ]
    omega

theorem monomials_mem {α : Type} {xs : List α} {n : Nat} {combo : List α}
    (h : combo ∈ monomials xs n) : combo ≠ [] ∧ ∀ a ∈ combo, a ∈ xs := by
  induction n with
  | zero => cases h
  | succ n ih =>
    have hstep : monomials xs (n + 1) = monomials xs n ++ cwr (n + 1) xs := rfl
    rw [hstep] at h
    rcases List.mem_append.mp h with h | h
    · exact ih h
    · obtain ⟨hlen, hmem⟩ := cwr_mem (n + 1) xs combo h
      refine ⟨?_, hmem⟩
      intro hnil
      rw [hnil] at hlen
      cases hlen

theorem prodCols_length {m : Nat} :
    ∀ ls : List (List ℚ), ls ≠ [] → (∀ l ∈ ls, l.length = m) →
      (prodCols ls).length = m := by
  intro ls
  induction ls with
  | nil => intro h; cases h rfl
  | cons qs rest ih =>
    intro _ hlen
    cases rest with
    | nil =>
      show qs.length = m
      exact hlen qs (List.mem_cons_self _ _)
    | cons q2 rest2 =>
      show (List.zipWith (fun a b => a * b) qs (prodCols (q2 :: rest2))).length = m
      rw [List.length_zipWith,
        ih (by simp) (fun l hl => hlen l (List.mem_cons_of_mem _ hl)),
        hlen qs (List.mem_cons_self _ _)]
      simp

theorem polyColsOf_length (subQ : List (String × List ℚ)) (d : Nat) :
    (polyColsOf subQ d).length = (monomials subQ d).length := by
  unfold polyColsOf
  rw [List.length_map]

theorem polyColsOf_WF {subQ : List (String × List ℚ)} {d m : Nat}
    (hq : ∀ p ∈ subQ, p.2.length = m) :
    ∀ c ∈ polyColsOf subQ d, c.values.length = m := by
  intro c hc
  obtain ⟨combo, hcombo, hceq⟩ := List.mem_map.mp hc
  obtain ⟨hne, hmem⟩ := monomials_mem hcombo
  subst hceq
  show ((prodCols (combo.map (fun p => p.2))).map Val.num).length = m
  rw [List.length_map]
  apply prodCols_length
  · intro h
    exact hne (List.map_eq_nil_iff.mp h)
  · intro l hl
    obtain ⟨p, hp, hpe⟩ := List.mem_map.mp hl
    subst hpe
    exact hq p (hmem p hp)

/-! ### Lemmas about the imputation step -/

theorem map_self {α : Type} (f : α → α) :
    ∀ l : List α, (∀ x ∈ l, f x = x) → l.map f = l := by
  intro l
  induction l with
  | nil => intro _; rfl
  | cons x xs ih =>
    intro h
    show f x :: xs.map f = x :: xs
    rw [h x (List.mem_cons_self _ _), ih (fun a ha => h a (List.mem_cons_of_mem _ ha))]

theorem mapE_ok_of_forall {f : α → Except PError β} :
    ∀ {l : List α}, (∀ x ∈ l, ∃ y, f x = .ok y) → ∃ l2, mapE f l = .ok l2 := by
  intro l
  induction l with
  | nil => intro _; exact ⟨[], rfl⟩
  | cons x xs ih =>
    intro h
    obtain ⟨y, hy⟩ := h x (List.mem_cons_self _ _)
    obtain ⟨ys, hys⟩ := ih (fun a ha => h a (List.mem_cons_of_mem _ ha))
    exact ⟨y :: ys, by unfold mapE; rw [hy, hys]⟩

theorem imputeCol_length {vs vs2 : List Val} (h : imputeCol vs = .ok vs2) :
    vs2.length = vs.length := by
  unfold imputeCol at h
  by_cases ha : vs.any (fun v => v == Val.na) = true
  · rw [if_pos ha] at h
    cases hm : mapO toQ (vs.filter (fun v => !(v == Val.na))) with
    | none => rw [hm] at h; cases h
    | some qs =>
      rw [hm] at h
      cases h
      rw [List.length_map]
  · rw [if_neg ha] at h
    cases h
    rfl

theorem imputeCol_no_na {vs : List Val}
    (h : vs.any (fun v => v == Val.na) = false) : imputeCol vs = .ok vs := by
  unfold imputeCol
  rw [h]
  simp

theorem imputeCol_output_no_na {vs vs2 : List Val}
    (h : imputeCol vs = .ok vs2) (hex : ∃ v ∈ vs, v ≠ Val.na) :
    ∀ v ∈ vs2, v ≠ Val.na := by
  unfold imputeCol at h
  by_cases ha : vs.any (fun v => v == Val.na) = true
  · rw [if_pos ha] at h
    cases hm : mapO toQ (vs.filter (fun v => !(v == Val.na))) with
    | none => rw [hm] at h; cases h
    | some qs =>
      rw [hm] at h
      obtain ⟨v0, hv0, hv0ne⟩ := hex
      have hfil : v0 ∈ vs.filter (fun v => !(v == Val.na)) :=
        List.mem_filter.mpr ⟨hv0, by simpa using hv0ne⟩
      have hlen : qs.length = (vs.filter (fun v => !(v == Val.na))).length :=
        mapO_some_length hm
      cases hq : qs with
      | nil =>
        rw [hq] at hlen
        have : v0 ∈ ([] : List Val) := by
          have h0 : (vs.filter (fun v => !(v == Val.na))).length = 0 := hlen.symm
          rw [List.length_eq_zero.mp h0] at hfil
          exact hfil
        cases this
      | cons q qs' =>
        rw [hq] at h
        cases h
        intro v hv
        obtain ⟨w, hw, hweq⟩ := List.mem_map.mp hv
        by_cases hwna : w == Val.na
        · rw [if_pos hwna] at hweq
          subst hweq
          intro hcon
          cases hcon
        · rw [if_neg hwna] at hweq
          subst hweq
          simpa using hwna
  · rw [if_neg ha] at h
    cases h
    intro v hv
    have h2 := List.any_eq_false.mp (Bool.eq_false_iff.mpr ha) v hv
    simpa using h2

theorem imputeCol_fix_self {vs : List Val}
    (hall : ∀ v ∈ vs, v = Val.na) :
    vs.map (fun v => if v == Val.na then Val.na else v) = vs :=
  map_self _ vs (fun v hv => by rw [hall v hv]; simp)

theorem imputeCol_all_na {vs vs2 : List Val}
    (hall : ∀ v ∈ vs, v = Val.na) (h : imputeCol vs = .ok vs2) : vs2 = vs := by
  unfold imputeCol at h
  by_cases ha : vs.any (fun v => v == Val.na) = true
  · rw [if_pos ha] at h
    have hfil : vs.filter (fun v => !(v == Val.na)) = [] := by
      rw [List.filter_eq_nil_iff]
      intro v hv
      rw [hall v hv]
      simp
    rw [hfil] at h
    cases h
    exact imputeCol_fix_self hall
  · rw [if_neg ha] at h
    cases h
    rfl

theorem imputeCol_idem {vs vs2 : List Val} (h : imputeCol vs = .ok vs2) :
    imputeCol vs2 = .ok vs2 := by
  by_cases ha : vs.any (fun v => v == Val.na) = true
  · have hcopy := h
    unfold imputeCol at hcopy
    rw [if_pos ha] at hcopy
    cases hm : mapO toQ (vs.filter (fun v => !(v == Val.na))) with
    | none => rw [hm] at hcopy; cases hcopy
    | some qs =>
      rw [hm] at hcopy
      cases hq : qs with
      | nil =>
        have hall : ∀ v ∈ vs, v = Val.na := by
          intro v hv
          by_contra hne
          have hfil : v ∈ vs.filter (fun v => !(v == Val.na)) :=
            List.mem_filter.mpr ⟨hv, by simpa using hne⟩
          have hlen : ([] : List ℚ).length =
              (vs.filter (fun v => !(v == Val.na))).length := by
            rw [← hq]; exact mapO_some_length hm
          rw [List.length_eq_zero.mp hlen.symm] at hfil
          cases hfil
        have h2 : vs2 = vs := imputeCol_all_na hall h
        rw [h2] at h ⊢
        exact h
      | cons q qs' =>
        have hnona : ∀ v ∈ vs2, v ≠ Val.na := by
          apply imputeCol_output_no_na h
          have hlen : qs.length = (vs.filter (fun v => !(v == Val.na))).length :=
            mapO_some_length hm
          rw [hq] at hlen
          cases hfe : vs.filter (fun v => !(v == Val.na)) with
          | nil => rw [hfe] at hlen; cases hlen
          | cons w ws =>
            have hw : w ∈ vs.filter (fun v => !(v == Val.na)) := by
              rw [hfe]; exact List.mem_cons_self _ _
            have := List.mem_filter.mp hw
            exact ⟨w, this.1, by simpa using this.2⟩
        apply imputeCol_no_na
        apply List.any_eq_false.mpr
        intro v hv
        simpa using hnona v hv
  · unfold imputeCol at h
    rw [if_neg ha] at h
    cases h
    exact imputeCol_no_na (Bool.eq_false_iff.mpr ha)

theorem imputeColD_name (c : Col) : (imputeColD c).name = c.name := by
  unfold imputeColD
  cases h : imputeCol c.values <;> simp

theorem imputeColD_length (c : Col) :
    (imputeColD c).values.length = c.values.length := by
  unfold imputeColD
  cases h : imputeCol c.values with
  | error e => rfl
  | ok vs => simpa using imputeCol_length h

theorem imputeColD_idem (c : Col) : imputeColD (imputeColD c) = imputeColD c := by
  unfold imputeColD
  cases h : imputeCol c.values with
  | error e =>
    rw [h]
  | ok vs =>
    have h2 : imputeCol vs = .ok vs := imputeCol_idem h
    simp only []
    rw [h2]

theorem impute_ok_inv {t : Table} {numC : List String} {t1 : Table}
    (h : impute_numerics t numC = .ok t1) :
    (∀ n ∈ numC, ∃ c, t.find? (fun c => c.name == n) = some c ∧
      ∃ vs, imputeCol c.values = .ok vs) ∧
    t1 = t.map (fun c => if c.name ∈ numC then imputeColD c else c) := by
  unfold impute_numerics at h
  cases hm : mapE (fun n =>
      match t.find? (fun c => c.name == n) with
      | none => .error (.keyErrorCol n)
      | some c => imputeCol c.values) numC with
  | error e => rw [hm] at h; cases h
  | ok l =>
    rw [hm] at h
    cases h
    refine ⟨?_, rfl⟩
    intro n hn
    obtain ⟨vs, hvs, hfn⟩ := mapE_ok_of_mem hm n hn
    cases hfind : t.find? (fun c => c.name == n) with
    | none => rw [hfind] at hfn; cases hfn
    | some c =>
      rw [hfind] at hfn
      exact ⟨c, rfl, vs, hfn⟩

theorem impute_map_name (numC : List String) (c : Col) :
    ((fun c => if c.name ∈ numC then imputeColD c else c) c).name = c.name := by
  show (if c.name ∈ numC then imputeColD c else c).name = c.name
  by_cases h : c.name ∈ numC
  · rw [if_pos h]
    exact imputeColD_name c
  · rw [if_neg h]

theorem impute_WF {t : Table} {numC : List String} {t1 : Table} {n : Nat}
    (hwf : WF n t) (h : impute_numerics t numC = .ok t1) : WF n t1 := by
  obtain ⟨-, ht1⟩ := impute_ok_inv h
  subst ht1
  intro c hc
  obtain ⟨c0, hc0, hceq⟩ := List.mem_map.mp hc
  subst hceq
  by_cases hmem : c0.name ∈ numC
  · rw [if_pos hmem, imputeColD_length]
    exact hwf c0 hc0
  · rw [if_neg hmem]
    exact hwf c0 hc0

theorem impute_idem {t : Table} {numC : List String} {t1 : Table}
    (h : impute_numerics t numC = .ok t1) :
    impute_numerics t1 numC = .ok t1 := by
  obtain ⟨hchecks, ht1⟩ := impute_ok_inv h
  have hg : ∀ n ∈ numC, ∃ vs,
      (match t1.find? (fun c => c.name == n) with
       | none => Except.error (PError.keyErrorCol n)
       | some c => imputeCol c.values) = .ok vs := by
    intro n hn
    obtain ⟨c, hc, vs, hvs⟩ := hchecks n hn
    have hfind1 : t1.find? (fun c => c.name == n) =
        (t.find? (fun c => c.name == n)).map
          (fun c => if c.name ∈ numC then imputeColD c else c) := by
      rw [ht1]
      exact find?_name_map _ (impute_map_name numC) n t
    have hcn : c.name = n := by simpa using List.find?_some hc
    have hmem : c.name ∈ numC := by rw [hcn]; exact hn
    have hgc : (if c.name ∈ numC then imputeColD c else c) = imputeColD c :=
      if_pos hmem
    have hDc : imputeColD c = ⟨c.name, vs⟩ := by
      unfold imputeColD
      rw [hvs]
    refine ⟨vs, ?_⟩
    rw [hfind1, hc]
    simp only [Option.map_some']
    rw [hgc, hDc]
    exact imputeCol_idem hvs
  obtain ⟨l2, hl2⟩ := mapE_ok_of_forall (fun n hn => hg n hn)
  unfold impute_numerics
  rw [hl2]
  have hmap : t1.map (fun c => if c.name ∈ numC then imputeColD c else c) = t1 := by
    rw [ht1, List.map_map]
    apply List.map_congr_left
    intro c hc
    show (if (if c.name ∈ numC then imputeColD c else c).name ∈ numC then
        imputeColD (if c.name ∈ numC then imputeColD c else c)
      else (if c.name ∈ numC then imputeColD c else c)) =
        (if c.name ∈ numC then imputeColD c else c)
    by_cases hmem : c.name ∈ numC
    · rw [if_pos hmem, if_pos (by rw [imputeColD_name]; exact hmem),
        imputeColD_idem]
    · rw [if_neg hmem, if_neg hmem]
  rw [hmap]

/-! ### Lemmas about encoding, splitting, validation, reattachment -/

theorem flat_mem {α : Type} {a : α} :
    ∀ {ls : List (List α)}, a ∈ flat ls ↔ ∃ l ∈ ls, a ∈ l := by
  intro ls
  induction ls with
  | nil =>
    constructor
    · intro h; cases h
    · intro ⟨l, hl, _⟩; cases hl
  | cons l ls ih =>
    constructor
    · intro h
      rcases List.mem_append.mp h with h | h
      · exact ⟨l, List.mem_cons_self _ _, h⟩
      · obtain ⟨l2, hl2, ha⟩ := ih.mp h
        exact ⟨l2, List.mem_cons_of_mem _ hl2, ha⟩
    · intro ⟨l2, hl2, ha⟩
      rcases List.mem_cons.mp hl2 with h | h
      · subst h; exact List.mem_append.mpr (Or.inl ha)
      · exact List.mem_append.mpr (Or.inr (ih.mpr ⟨l2, h, ha⟩))

theorem extractCols_mem {t : Table} {names : List String} {cs : List Col}
    (h : extractCols t names = .ok cs) : ∀ c ∈ cs, c ∈ t := by
  intro c hc
  obtain ⟨n, hn, hfn⟩ := mapE_mem_of_ok h c hc
  cases hfind : t.find? (fun c0 => c0.name == n) with
  | none => rw [hfind] at hfn; cases hfn
  | some c0 =>
    rw [hfind] at hfn
    cases hfn
    exact List.mem_of_find?_eq_some hfind

theorem extractCols_forall {t : Table} {names : List String} {cs : List Col}
    (h : extractCols t names = .ok cs) :
    List.Forall₂ (fun n c => t.find? (fun c0 => c0.name == n) = some c) names cs := by
  have h2 := mapE_ok_iff.mp h
  refine List.Forall₂.imp ?_ h2
  intro n c hnc
  cases hfind : t.find? (fun c0 => c0.name == n) with
  | none => rw [hfind] at hnc; cases hnc
  | some c0 =>
    rw [hfind] at hnc
    cases hnc
    rfl

theorem dummyCols_values_length (c : Col) :
    ∀ d ∈ dummyCols c, d.values.length = c.values.length := by
  intro d hd
  obtain ⟨v, hv, hdeq⟩ := List.mem_map.mp hd
  subst hdeq
  show (c.values.map _).length = c.values.length
  rw [List.length_map]

theorem encode_ok_inv {t : Table} {catC : List String} {t2 : Table}
    (h : one_hot_encode t catC = .ok t2) :
    ∃ cs, extractCols t catC = .ok cs ∧
      t2 = t.filter (fun c => !(c.name ∈ catC : Bool)) ++ flat (cs.map dummyCols) := by
  unfold one_hot_encode at h
  cases hx : extractCols t catC with
  | error e => rw [hx] at h; cases h
  | ok cs =>
    rw [hx] at h
    cases h
    exact ⟨cs, rfl, rfl⟩

theorem encode_WF {t : Table} {catC : List String} {t2 : Table} {n : Nat}
    (hwf : WF n t) (h : one_hot_encode t catC = .ok t2) : WF n t2 := by
  obtain ⟨cs, hcs, ht2⟩ := encode_ok_inv h
  subst ht2
  apply WF_append (WF_filter _ hwf)
  intro d hd
  obtain ⟨ds, hds, hdin⟩ := flat_mem.mp hd
  obtain ⟨c, hc, hdseq⟩ := List.mem_map.mp hds
  subst hdseq
  rw [dummyCols_values_length c d hdin]
  exact hwf c (extractCols_mem hcs c hc)

theorem split_ok_inv {t : Table} {target : String} {X : Table} {y : List Val}
    (h : split_target t target = .ok (X, y)) :
    ∃ c, t.find? (fun c0 => c0.name == target) = some c ∧
      mapE castVal c.values = .ok y ∧
      X = t.filter (fun c2 => !(c2.name == target)) := by
  unfold split_target at h
  cases hfind : t.find? (fun c0 => c0.name == target) with
  | none => rw [hfind] at h; cases h
  | some c =>
    rw [hfind] at h
    dsimp only at h
    cases hmap : mapE castVal c.values with
    | error e => rw [hmap] at h; cases h
    | ok y2 =>
      rw [hmap] at h
      cases h
      exact ⟨c, rfl, hmap, rfl⟩

theorem split_WF {t : Table} {target : String} {X : Table} {y : List Val}
    {n : Nat} (hwf : WF n t) (h : split_target t target = .ok (X, y)) :
    WF n X ∧ y.length = n := by
  obtain ⟨c, hc, hy, hX⟩ := split_ok_inv h
  subst hX
  refine ⟨WF_filter _ hwf, ?_⟩
  rw [mapE_ok_length hy]
  exact hwf c (List.mem_of_find?_eq_some hc)

theorem validate_ok_of_present {t : Table} {numC catC : List String}
    (h1 : numC.filter (fun n => !(hasCol t n)) = [])
    (h2 : catC.filter (fun n => !(hasCol t n)) = []) :
    validate_columns t numC catC = .ok () := by
  unfold validate_columns
  rw [if_pos ⟨h1, h2⟩]

theorem validate_error_of_missing {t : Table} {numC catC : List String}
    (h : ¬ (numC.filter (fun n => !(hasCol t n)) = [] ∧
      catC.filter (fun n => !(hasCol t n)) = [])) :
    validate_columns t numC catC =
      .error (.schemaMissing (numC.filter (fun n => !(hasCol t n)))
        (catC.filter (fun n => !(hasCol t n)))) := by
  unfold validate_columns
  rw [if_neg h]

theorem setCol_getCol (t : Table) (name : String) (vs : List Val) :
    getCol (setCol t name vs) name = some ⟨name, vs⟩ := by
  unfold setCol
  by_cases h : hasCol t name = true
  · rw [if_pos h]
    unfold getCol
    rw [find?_name_map _ ?_ name t]
    · cases hfind : t.find? (fun c => c.name == name) with
      | none =>
        obtain ⟨c, hc, hcn⟩ := List.any_eq_true.mp h
        have := List.find?_eq_none.mp hfind c hc
        exact absurd hcn this
      | some c =>
        have hcn := List.find?_some hfind
        simp only [Option.map_some']
        show some (if (c.name == name) = true then (⟨name, vs⟩ : Col) else c) =
          some ⟨name, vs⟩
        rw [if_pos hcn]
    · intro c
      show (if (c.name == name) = true then (⟨name, vs⟩ : Col) else c).name = c.name
      by_cases hc : (c.name == name) = true
      · rw [if_pos hc]
        have h2 : c.name = name := by simpa using hc
        exact h2.symm
      · rw [if_neg hc]
  · rw [if_neg h]
    unfold getCol
    rw [List.find?_append]
    have hnone : t.find? (fun c => c.name == name) = none := by
      have h2 : hasCol t name = false := by
        rcases hhc : hasCol t name with _ | _
        · rfl
        · rw [hhc] at h; exact absurd rfl h
      have := hasCol_false_getCol h2
      unfold getCol at this
      exact this
    rw [hnone]
    simp

theorem setCol_WF {t : Table} {name : String} {vs : List Val} {n : Nat}
    (hwf : WF n t) (hlen : vs.length = n) : WF n (setCol t name vs) := by
  unfold setCol
  by_cases h : hasCol t name = true
  · rw [if_pos h]
    intro c hc
    obtain ⟨c0, hc0, hceq⟩ := List.mem_map.mp hc
    by_cases hcn : (c0.name == name) = true
    · rw [if_pos hcn] at hceq
      subst hceq
      exact hlen
    · rw [if_neg hcn] at hceq
      subst hceq
      exact hwf c0 hc0
  · rw [if_neg h]
    intro c hc
    rcases List.mem_append.mp hc with hin | hin
    · exact hwf c hin
    · rcases List.mem_cons.mp hin with heq | hcon
      · subst heq; exact hlen
      · cases hcon

theorem make_scaler_invalid {kind : String} (h1 : kind ≠ "standard")
    (h2 : kind ≠ "minmax") :
    make_scaler kind = .error (.scalerKindError kind) := by
  unfold make_scaler
  rw [if_neg h1, if_neg h2]

/-! ### Lemmas about the orchestrator -/

theorem run_ok_inv {cfg : PreprocessConfig} {bronze : Table}
    {fitScaler : ScalerKind → List (List Val) → List (List Val)}
    {silver : Table} {evs : List Event}
    (h : run_preprocess cfg bronze fitScaler = (.ok silver, evs)) :
    ∃ X y X1 X2 kind X3 X4,
      split_target bronze cfg.target_col = .ok (X, y) ∧
      validate_columns X NUMERIC_COLS CATEGORICAL_COLS = .ok () ∧
      impute_numerics X NUMERIC_COLS = .ok X1 ∧
      one_hot_encode X1 CATEGORICAL_COLS = .ok X2 ∧
      make_scaler cfg.scaler = .ok kind ∧
      scale_numerics X2 NUMERIC_COLS (fitScaler kind) = .ok X3 ∧
      poly_expand X3 NUMERIC_COLS cfg.poly_degree = .ok X4 ∧
      silver = setCol X4 cfg.target_col y := by
  unfold run_preprocess at h
  cases h1 : split_target bronze cfg.target_col with
  | error e => rw [h1] at h; cases h
  | ok p =>
    obtain ⟨X, y⟩ := p
    rw [h1] at h
    dsimp only at h
    cases h2 : validate_columns X NUMERIC_COLS CATEGORICAL_COLS with
    | error e => rw [h2] at h; cases h
    | ok u =>
      cases u
      rw [h2] at h
      dsimp only at h
      cases h3 : impute_numerics X NUMERIC_COLS with
      | error e => rw [h3] at h; cases h
      | ok X1 =>
        rw [h3] at h
        dsimp only at h
        cases h4 : one_hot_encode X1 CATEGORICAL_COLS with
        | error e => rw [h4] at h; cases h
        | ok X2 =>
          rw [h4] at h
          dsimp only at h
          cases h5 : make_scaler cfg.scaler with
          | error e => rw [h5] at h; cases h
          | ok kind =>
            rw [h5] at h
            dsimp only at h
            cases h6 : scale_numerics X2 NUMERIC_COLS (fitScaler kind) with
            | error e => rw [h6] at h; cases h
            | ok X3 =>
              rw [h6] at h
              dsimp only at h
              cases h7 : poly_expand X3 NUMERIC_COLS cfg.poly_degree with
              | error e => rw [h7] at h; cases h
              | ok X4 =>
                rw [h7] at h
                dsimp only at h
                have hfst := congrArg Prod.fst h
                dsimp only at hfst
                cases hfst
                exact ⟨X, y, X1, X2, kind, X3, X4, rfl, h2, h3, h4, rfl, h6,
                  h7, rfl⟩

theorem run_error_events {cfg : PreprocessConfig} {bronze : Table}
    {f : ScalerKind → List (List Val) → List (List Val)} {e : PError}
    (h : (run_preprocess cfg bronze f).1 = .error e) :
    (run_preprocess cfg bronze f).2 = [.readBronze] ∨
    (run_preprocess cfg bronze f).2 = [.readBronze, .impute] ∨
    (run_preprocess cfg bronze f).2 = [.readBronze, .impute, .encode] ∨
    (run_preprocess cfg bronze f).2 = [.readBronze, .impute, .encode, .scale] ∨
    (run_preprocess cfg bronze f).2 =
      [.readBronze, .impute, .encode, .scale, .polyExpand] := by
  unfold run_preprocess at h ⊢
  cases h1 : split_target bronze cfg.target_col with
  | error e1 => exact Or.inl rfl
  | ok p =>
    obtain ⟨X, y⟩ := p
    rw [h1] at h
    dsimp only at h ⊢
    cases h2 : validate_columns X NUMERIC_COLS CATEGORICAL_COLS with
    | error e2 => exact Or.inl rfl
    | ok u =>
      cases u
      rw [h2] at h
      dsimp only at h ⊢
      cases h3 : impute_numerics X NUMERIC_COLS with
      | error e3 => exact Or.inr (Or.inl rfl)
      | ok X1 =>
        rw [h3] at h
        dsimp only at h ⊢
        cases h4 : one_hot_encode X1 CATEGORICAL_COLS with
        | error e4 => exact Or.inr (Or.inr (Or.inl rfl))
        | ok X2 =>
          rw [h4] at h
          dsimp only at h ⊢
          cases h5 : make_scaler cfg.scaler with
          | error e5 => exact Or.inr (Or.inr (Or.inl rfl))
          | ok kind =>
            rw [h5] at h
            dsimp only at h ⊢
            cases h6 : scale_numerics X2 NUMERIC_COLS (f kind) with
            | error e6 => exact Or.inr (Or.inr (Or.inr (Or.inl rfl)))
            | ok X3 =>
              rw [h6] at h
              dsimp only at h ⊢
              cases h7 : poly_expand X3 NUMERIC_COLS cfg.poly_degree with
              | error e7 => exact Or.inr (Or.inr (Or.inr (Or.inr rfl)))
              | ok X4 =>
                rw [h7] at h
                dsimp only at h
                cases h

theorem run_error_no_write {cfg : PreprocessConfig} {bronze : Table}
    {f : ScalerKind → List (List Val) → List (List Val)} {e : PError}
    (h : (run_preprocess cfg bronze f).1 = .error e) :
    Event.writeSilver ∉ (run_preprocess cfg bronze f).2 ∧
    Event.writeArtifacts ∉ (run_preprocess cfg bronze f).2 := by
  rcases run_error_events h with h2 | h2 | h2 | h2 | h2 <;> rw [h2] <;>
    exact ⟨by decide, by decide⟩

theorem run_validate_error_eq {cfg : PreprocessConfig} {bronze : Table}
    {f : ScalerKind → List (List Val) → List (List Val)} {X : Table}
    {y : List Val} {e : PError}
    (h1 : split_target bronze cfg.target_col = .ok (X, y))
    (h2 : validate_columns X NUMERIC_COLS CATEGORICAL_COLS = .error e) :
    run_preprocess cfg bronze f = (.error e, [.readBronze]) := by
  unfold run_preprocess
  rw [h1]
  dsimp only
  rw [h2]

theorem run_scaler_error_eq {cfg : PreprocessConfig} {bronze : Table}
    {f : ScalerKind → List (List Val) → List (List Val)} {X X1 X2 : Table}
    {y : List Val} {e : PError}
    (h1 : split_target bronze cfg.target_col = .ok (X, y))
    (h2 : validate_columns X NUMERIC_COLS CATEGORICAL_COLS = .ok ())
    (h3 : impute_numerics X NUMERIC_COLS = .ok X1)
    (h4 : one_hot_encode X1 CATEGORICAL_COLS = .ok X2)
    (h5 : make_scaler cfg.scaler = .error e) :
    run_preprocess cfg bronze f =
      (.error e, [.readBronze, .impute, .encode]) := by
  unfold run_preprocess
  rw [h1]
  dsimp only
  rw [h2]
  dsimp only
  rw [h3]
  dsimp only
  rw [h4]
  dsimp only
  rw [h5]

theorem run_poly_error_eq {cfg : PreprocessConfig} {bronze : Table}
    {f : ScalerKind → List (List Val) → List (List Val)} {X X1 X2 X3 : Table}
    {y : List Val} {kind : ScalerKind} {e : PError}
    (h1 : split_target bronze cfg.target_col = .ok (X, y))
    (h2 : validate_columns X NUMERIC_COLS CATEGORICAL_COLS = .ok ())
    (h3 : impute_numerics X NUMERIC_COLS = .ok X1)
    (h4 : one_hot_encode X1 CATEGORICAL_COLS = .ok X2)
    (h5 : make_scaler cfg.scaler = .ok kind)
    (h6 : scale_numerics X2 NUMERIC_COLS (f kind) = .ok X3)
    (h7 : poly_expand X3 NUMERIC_COLS cfg.poly_degree = .error e) :
    run_preprocess cfg bronze f =
      (.error e, [.readBronze, .impute, .encode, .scale, .polyExpand]) := by
  unfold run_preprocess
  rw [h1]
  dsimp only
  rw [h2]
  dsimp only
  rw [h3]
  dsimp only
  rw [h4]
  dsimp only
  rw [h5]
  dsimp only
  rw [h6]
  dsimp only
  rw [h7]

/-! ### The category order is a total order -/

theorem leChars_refl : ∀ l : List Char, leChars l l = true := by
  intro l
  induction l with
  | nil => rfl
  | cons a as ih =>
    show (if a = a then leChars as as else decide (a < a)) = true
    rw [if_pos rfl]
    exact ih

theorem leChars_total : ∀ x y : List Char,
    leChars x y = true ∨ leChars y x = true := by
  intro x
  induction x with
  | nil => intro y; exact Or.inl rfl
  | cons a as ih =>
    intro y
    cases y with
    | nil => exact Or.inr rfl
    | cons b bs =>
      by_cases hab : a = b
      · subst hab
        rcases ih bs with h | h
        · left
          show (if a = a then leChars as bs else _) = true
          rw [if_pos rfl]; exact h
        · right
          show (if a = a then leChars bs as else _) = true
          rw [if_pos rfl]; exact h
      · rcases lt_or_gt_of_ne hab with hlt | hgt
        · left
          show (if a = b then leChars as bs else decide (a < b)) = true
          rw [if_neg hab]
          simpa using hlt
        · right
          show (if b = a then leChars bs as else decide (b < a)) = true
          rw [if_neg (Ne.symm hab)]
          simpa using hgt

theorem leChars_trans : ∀ x y z : List Char,
    leChars x y = true → leChars y z = true → leChars x z = true := by
  intro x
  induction x with
  | nil => intro y z _ _; rfl
  | cons a as ih =>
    intro y z hxy hyz
    cases y with
    | nil => cases hxy
    | cons b bs =>
      cases z with
      | nil => cases hyz
      | cons c cs =>
        by_cases hab : a = b
        · subst hab
          by_cases hbc : a = c
          · subst hbc
            show (if a = a then leChars as cs else _) = true
            rw [if_pos rfl]
            have h1 : leChars as bs = true := by
              have := hxy
              rw [show leChars (a :: as) (a :: bs) =
                (if a = a then leChars as bs else decide (a < a)) from rfl,
                if_pos rfl] at this
              exact this
            have h2 : leChars bs cs = true := by
              have := hyz
              rw [show leChars (a :: bs) (a :: cs) =
                (if a = a then leChars bs cs else decide (a < a)) from rfl,
                if_pos rfl] at this
              exact this
            exact ih bs cs h1 h2
          · show (if a = c then leChars as cs else decide (a < c)) = true
            rw [if_neg hbc]
            have h2 : a < c := by
              have := hyz
              rw [show leChars (a :: bs) (c :: cs) =
                (if a = c then leChars bs cs else decide (a < c)) from rfl,
                if_neg hbc] at this
              simpa using this
            simpa using h2
        · have h1 : a < b := by
            have := hxy
            rw [show leChars (a :: as) (b :: bs) =
              (if a = b then leChars as bs else decide (a < b)) from rfl,
              if_neg hab] at this
            simpa using this
          by_cases hbc : b = c
          · subst hbc
            show (if a = b then leChars as cs else decide (a < b)) = true
            rw [if_neg hab]
            simpa using h1
          · have h2 : b < c := by
              have := hyz
              rw [show leChars (b :: bs) (c :: cs) =
                (if b = c then leChars bs cs else decide (b < c)) from rfl,
                if_neg hbc] at this
              simpa using this
            have hac : a < c := lt_trans h1 h2
            show (if a = c then leChars as cs else decide (a < c)) = true
            rw [if_neg (ne_of_lt hac)]
            simpa using hac

theorem valLe_refl : ∀ v : Val, valLe v v := by
  intro v
  cases v with
  | num q => show q ≤ q; exact le_refl q
  | str s => exact leChars_refl s.data
  | na => trivial

instance : IsTotal Val valLe :=
  ⟨by
    intro a b
    cases a <;> cases b <;> simp only [valLe] <;>
      first
        | exact Or.inl trivial
        | exact Or.inr trivial
        | exact le_total _ _
        | exact leChars_total _ _⟩

instance : IsTrans Val valLe :=
  ⟨by
    intro a b c hab hbc
    cases a <;> cases b <;> cases c <;> simp only [valLe] at * <;>
      first
        | trivial
        | exact le_trans hab hbc
        | exact leChars_trans _ _ _ hab hbc⟩

theorem catsOf_mem (vs : List Val) :
    ∀ v, v ∈ catsOf vs ↔ v ∈ vs ∧ v ≠ Val.na := by
  intro v
  unfold catsOf
  rw [List.mem_insertionSort, List.mem_dedup, List.mem_filter]
  constructor
  · intro ⟨h1, h2⟩
    exact ⟨h1, by simpa using h2⟩
  · intro ⟨h1, h2⟩
    exact ⟨h1, by simpa using h2⟩

theorem catsOf_nodup (vs : List Val) : (catsOf vs).Nodup := by
  unfold catsOf
  rw [List.Perm.nodup_iff (List.perm_insertionSort _ _)]
  exact List.nodup_dedup _

theorem catsOf_sorted (vs : List Val) : List.Sorted valLe (catsOf vs) :=
  List.sorted_insertionSort valLe _

theorem extractCols_singleton {t : Table} {n : String} {c : Col}
    (hc : getCol t n = some c) : extractCols t [n] = .ok [c] := by
  unfold getCol at hc
  unfold extractCols mapE
  rw [hc]
  rfl

theorem one_hot_single {t : Table} {cname : String} {c : Col}
    (hc : getCol t cname = some c) :
    one_hot_encode t [cname] =
      .ok (t.filter (fun c2 => !(c2.name ∈ [cname] : Bool)) ++ dummyCols c) := by
  unfold one_hot_encode
  rw [extractCols_singleton hc]
  show Except.ok (_ ++ flat [dummyCols c]) = _
  rw [flat_singleton]

/-! ### Claim C3: the Validator reports every missing column at once -/

/-- C3: for every table missing at least one declared numeric or categorical
column, `validate_columns` fails with the schema error carrying the full list
of missing numeric names and the full list of missing categorical names (in
declaration order, characterised by the two membership equivalences); for
every table containing all declared columns it returns cleanly (it computes
nothing else, so success has no effect). -/
theorem validate_columns_reports_all_missing (t : Table)
    (numC catC : List String) :
    ((numC.filter (fun n => !(hasCol t n)) ≠ [] ∨
        catC.filter (fun n => !(hasCol t n)) ≠ []) →
      validate_columns t numC catC =
        .error (.schemaMissing (numC.filter (fun n => !(hasCol t n)))
          (catC.filter (fun n => !(hasCol t n))))) ∧
    (∀ n, n ∈ numC.filter (fun n => !(hasCol t n)) ↔
      n ∈ numC ∧ hasCol t n = false) ∧
    (∀ n, n ∈ catC.filter (fun n => !(hasCol t n)) ↔
      n ∈ catC ∧ hasCol t n = false) ∧
    ((∀ n ∈ numC, hasCol t n = true) → (∀ n ∈ catC, hasCol t n = true) →
      validate_columns t numC catC = .ok ()) := by
  refine ⟨?_, ?_, ?_, ?_⟩
  · intro h
    apply validate_error_of_missing
    intro ⟨h1, h2⟩
    rcases h with h | h
    · exact h h1
    · exact h h2
  · intro n
    rw [List.mem_filter]
    constructor
    · intro ⟨h1, h2⟩
      exact ⟨h1, by simpa using h2⟩
    · intro ⟨h1, h2⟩
      exact ⟨h1, by simpa using h2⟩
  · intro n
    rw [List.mem_filter]
    constructor
    · intro ⟨h1, h2⟩
      exact ⟨h1, by simpa using h2⟩
    · intro ⟨h1, h2⟩
      exact ⟨h1, by simpa using h2⟩
  · intro h1 h2
    apply validate_ok_of_present
    · rw [List.filter_eq_nil_iff]
      intro n hn
      rw [h1 n hn]
      simp
    · rw [List.filter_eq_nil_iff]
      intro n hn
      rw [h2 n hn]
      simp

/-- Witness for C3 at a concrete table: a table holding only `person_age`
is rejected with both missing lists filled in, and a complete table
passes. -/
theorem validate_columns_reports_all_missing_witness :
    validate_columns [⟨"person_age", []⟩] ["person_age", "loan_amnt"]
      ["loan_grade"] = .error (.schemaMissing ["loan_amnt"] ["loan_grade"]) ∧
    validate_columns [⟨"person_age", []⟩] ["person_age"] [] = .ok () := by
  constructor
  · exact (validate_columns_reports_all_missing [⟨"person_age", []⟩]
      ["person_age", "loan_amnt"] ["loan_grade"]).1 (by decide)
  · exact (validate_columns_reports_all_missing [⟨"person_age", []⟩]
      ["person_age"] []).2.2.2 (by decide) (by decide)

/-! ### Claim C2: an all-missing numeric column -/

/-- C2, evaluated at the failing input: on a declared-schema table whose
`person_age` column is entirely missing, `impute_numerics` raises nothing
and returns the table unchanged — the all-NaN median is NaN and filling with
it is a no-op — so the returned table still carries the missing marker in
`person_age`, where the spec requires a `DataQualityError`. -/
theorem all_missing_column_silently_kept :
    impute_numerics tblAllNaAge NUMERIC_COLS = .ok tblAllNaAge ∧
    getCol tblAllNaAge "person_age" =
      some ⟨"person_age", [Val.na, Val.na]⟩ ∧
    "person_age" ∈ NUMERIC_COLS ∧
    (∀ v ∈ [Val.na, Val.na], v = Val.na) := by decide

/-! ### Claim C7: imputer idempotence -/

/-- C7 counterexample: on a declared-schema table whose `loan_amnt` column
is entirely missing, one pass of the Imputer succeeds yet leaves the
missing markers in place, refuting the claim's clause that after one pass
no declared numeric column contains missing values. -/
theorem imputer_leaves_all_missing_column :
    impute_numerics tblAllNaAmnt NUMERIC_COLS = .ok tblAllNaAmnt ∧
    getCol tblAllNaAmnt "loan_amnt" = some ⟨"loan_amnt", [Val.na]⟩ ∧
    "loan_amnt" ∈ NUMERIC_COLS ∧ Val.na ∈ [Val.na] := by decide

/-- C7 amended: the Imputer is idempotent — a second application to its own
output returns that output unchanged; after one pass a declared numeric
column that had at least one observed value carries no missing marker (an
all-missing column is the sole exception, per the counterexample); and any
column with no missing values is returned unchanged. -/
theorem imputer_idempotent (t : Table) (numC : List String) (t1 : Table)
    (h : impute_numerics t numC = .ok t1) :
    impute_numerics t1 numC = .ok t1 ∧
    (∀ name c c2, name ∈ numC → getCol t name = some c →
      getCol t1 name = some c2 → (∃ v ∈ c.values, v ≠ Val.na) →
      ∀ v ∈ c2.values, v ≠ Val.na) ∧
    (∀ name c, getCol t name = some c → (∀ v ∈ c.values, v ≠ Val.na) →
      getCol t1 name = some c) := by
  obtain ⟨hchecks, ht1⟩ := impute_ok_inv h
  refine ⟨impute_idem h, ?_, ?_⟩
  · intro name c c2 hmem hc hc2 hex
    have hmap : getCol t1 name = (getCol t name).map
        (fun c => if c.name ∈ numC then imputeColD c else c) := by
      rw [ht1]
      exact find?_name_map _ (impute_map_name numC) name t
    rw [hmap, hc] at hc2
    simp only [Option.map_some'] at hc2
    have hcn : c.name = name := getCol_name hc
    have hcmem : c.name ∈ numC := by rw [hcn]; exact hmem
    rw [if_pos hcmem] at hc2
    obtain ⟨c3, hfind, vs, hvs⟩ := hchecks name hmem
    have hc3 : c3 = c := by
      unfold getCol at hc
      rw [hc] at hfind
      exact (Option.some.inj hfind).symm
    rw [hc3] at hvs
    have hD : imputeColD c = ⟨c.name, vs⟩ := by
      unfold imputeColD
      rw [hvs]
    rw [hD] at hc2
    cases hc2
    exact imputeCol_output_no_na hvs hex
  · intro name c hc hnone
    have hmap : getCol t1 name = (getCol t name).map
        (fun c => if c.name ∈ numC then imputeColD c else c) := by
      rw [ht1]
      exact find?_name_map _ (impute_map_name numC) name t
    rw [hmap, hc]
    simp only [Option.map_some']
    by_cases hmem : c.name ∈ numC
    · rw [if_pos hmem]
      have hany : c.values.any (fun v => v == Val.na) = false := by
        apply List.any_eq_false.mpr
        intro v hv
        simpa using hnone v hv
      have : imputeColD c = c := by
        unfold imputeColD
        rw [imputeCol_no_na hany]
      rw [this]
    · rw [if_neg hmem]

/-- Witness for C7 at a concrete input: one pass on a column holding a
missing cell and the value 4 yields the filled column, and a second pass
returns it unchanged. -/
theorem imputer_idempotent_witness :
    impute_numerics [⟨"a", [Val.num 4, Val.num 4]⟩] ["a"] =
      .ok [⟨"a", [Val.num 4, Val.num 4]⟩] :=
  (imputer_idempotent [⟨"a", [Val.na, Val.num 4]⟩] ["a"]
    [⟨"a", [Val.num 4, Val.num 4]⟩] (by decide)).1

/-! ### Claim C5: the Encoder -/

/-- C5: on a categorical column whose observed (non-missing) values are
strings, the Encoder replaces the column with exactly one 0/1 integer
indicator column per distinct observed category except the first in
lexicographic order, which is dropped; each indicator is named by the source
name, an underscore and the category value; the category list is exactly the
set of distinct observed values; and encoding is deterministic (the encoder
is a pure function of the table, so re-encoding equal input gives equal
output). -/
theorem one_hot_encode_spec (t : Table) (cname : String) (c : Col)
    (hc : getCol t cname = some c)
    (hstr : ∀ v ∈ c.values, v = Val.na ∨ isStr v = true)
    (hk : catsOf c.values ≠ []) :
    ∃ c0 rest, catsOf c.values = c0 :: rest ∧
      one_hot_encode t [cname] =
        .ok (t.filter (fun c2 => !(c2.name ∈ ([cname] : List String) : Bool))
          ++ dummyCols c) ∧
      (dummyCols c).length + 1 = (catsOf c.values).length ∧
      (dummyCols c).map (fun d => d.name) =
        rest.map (fun v => c.name ++ "_" ++ valStr v) ∧
      (∀ d ∈ dummyCols c, ∀ x ∈ d.values, x = Val.num 0 ∨ x = Val.num 1) ∧
      (∀ d ∈ dummyCols c, d.values.length = c.values.length) ∧
      (∀ v, v ∈ catsOf c.values ↔ v ∈ c.values ∧ v ≠ Val.na) ∧
      (catsOf c.values).Nodup ∧
      (∃ s0, c0 = Val.str s0 ∧
        ∀ s, Val.str s ∈ catsOf c.values → leChars s0.data s.data = true) ∧
      one_hot_encode t [cname] = one_hot_encode t [cname] := by
  cases hcats : catsOf c.values with
  | nil => exact absurd hcats hk
  | cons c0 rest =>
    have hdrop : dummyCols c = rest.map (fun v =>
        ⟨c.name ++ "_" ++ valStr v,
         c.values.map (fun x => if x == v then Val.num 1 else Val.num 0)⟩) := by
      unfold dummyCols
      rw [hcats]
      rfl
    refine ⟨c0, rest, rfl, one_hot_single hc, ?_, ?_, ?_,
      dummyCols_values_length c, ?_, ?_, ?_, rfl⟩
    · rw [hdrop, List.length_map, List.length_cons]
    · rw [hdrop, List.map_map]
      rfl
    · intro d hd
      rw [hdrop] at hd
      obtain ⟨v, hv, hdeq⟩ := List.mem_map.mp hd
      subst hdeq
      intro x hx
      obtain ⟨x0, hx0, hxeq⟩ := List.mem_map.mp hx
      by_cases hxv : (x0 == v) = true
      · rw [if_pos hxv] at hxeq
        exact Or.inr hxeq.symm
      · rw [if_neg hxv] at hxeq
        exact Or.inl hxeq.symm
    · intro v
      rw [← hcats]
      exact catsOf_mem c.values v
    · exact hcats ▸ catsOf_nodup c.values
    · have hc0mem : c0 ∈ catsOf c.values := by
        rw [hcats]
        exact List.mem_cons_self _ _
      have hc0 := (catsOf_mem c.values c0).mp hc0mem
      rcases hstr c0 hc0.1 with hna | hs
      · exact absurd hna hc0.2
      · cases hc0v : c0 with
        | num q => rw [hc0v] at hs; cases hs
        | na => exact absurd hc0v hc0.2
        | str s0 =>
          refine ⟨s0, rfl, ?_⟩
          intro s hsmem
          have hsorted := catsOf_sorted c.values
          rw [hcats] at hsorted
          rcases List.mem_cons.mp hsmem with heq | hmem
          · have h2 : s0 = s := Val.str.inj heq.symm
            rw [h2]
            exact leChars_refl s.data
          · have hle := List.rel_of_sorted_cons hsorted _ hmem
            rw [hc0v] at hle
            exact hle

/-- Witness for C5 at the spec's scenario column `home` with values rent,
own, rent, mortgage, own: the encoder keeps the numeric column, drops the
lexicographically first category `mortgage`, and appends the two
indicators. -/
theorem one_hot_encode_spec_witness :
    one_hot_encode tblHome ["home"] =
      .ok (tblHome.filter
          (fun c2 => !(c2.name ∈ (["home"] : List String) : Bool))
        ++ dummyCols homeCol) := by
  obtain ⟨c0, rest, hcats, henc, hrest⟩ :=
    one_hot_encode_spec tblHome "home" homeCol (by decide) (by decide)
      (by decide)
  exact henc

/-! ### Claim C6: the Polynomial Expander -/

theorem colQs_length {c : Col} {p : String × List ℚ} (h : colQs c = .ok p) :
    p.2.length = c.values.length := by
  unfold colQs at h
  cases hm : mapO toQ c.values with
  | none => rw [hm] at h; cases h
  | some qs =>
    rw [hm] at h
    cases h
    exact mapO_some_length hm

/-- C6: on a table whose declared numeric columns are present and fully
numeric, expansion with degree `n ≥ 1` succeeds, removes the `d = |numC|`
original numeric columns, appends exactly `C(d + n, n) - 1` monomial
columns (stated additively: count + 1 = `C(d + n, n)`, so no bias column is
produced), carries every other column through untouched (both by the shape
of the result and by lookup), and leaves the row count of every column
unchanged. -/
theorem poly_expand_spec (t : Table) (numC : List String) (n m : Nat)
    (deg : Int) (sub : List Col) (subQ : List (String × List ℚ))
    (hdeg : deg = (n : Int)) (hn : 1 ≤ n)
    (hsub : extractCols t numC = .ok sub)
    (hq : mapE colQs sub = .ok subQ)
    (hwf : WF m t) :
    poly_expand t numC deg =
      .ok (t.filter (fun c => !(c.name ∈ numC : Bool)) ++ polyColsOf subQ n) ∧
    (polyColsOf subQ n).length + 1 = (numC.length + n).choose n ∧
    (∀ c ∈ polyColsOf subQ n, c.values.length = m) ∧
    WF m (t.filter (fun c => !(c.name ∈ numC : Bool)) ++ polyColsOf subQ n) ∧
    (∀ name c, getCol t name = some c → ¬ name ∈ numC →
      getCol (t.filter (fun c => !(c.name ∈ numC : Bool)) ++ polyColsOf subQ n)
        name = some c) := by
  have heq : poly_expand t numC deg =
      .ok (t.filter (fun c => !(c.name ∈ numC : Bool)) ++ polyColsOf subQ n) := by
    unfold poly_expand
    rw [if_neg (by omega : ¬ deg ≤ 0), hsub]
    dsimp only
    rw [hq]
    have htn : deg.toNat = n := by omega
    rw [htn]
  have hcollen : ∀ c ∈ polyColsOf subQ n, c.values.length = m := by
    apply polyColsOf_WF
    intro p hp
    obtain ⟨c, hcmem, hcp⟩ := mapE_mem_of_ok hq p hp
    rw [colQs_length hcp]
    exact hwf c (extractCols_mem hsub c hcmem)
  refine ⟨heq, ?_, hcollen, ?_, ?_⟩
  · rw [polyColsOf_length, monomials_length subQ n, mapE_ok_length hq,
      mapE_ok_length hsub]
  · exact WF_append (WF_filter _ hwf) hcollen
  · intro name c hc hn2
    exact poly_pass_through hn2 hc heq

/-- Witness for C6 at a concrete two-column numeric table with degree 2:
the monomial count satisfies count + 1 = C(2 + 2, 2). -/
theorem poly_expand_spec_witness :
    (polyColsOf [("a", [(1 : ℚ)]), ("b", [(2 : ℚ)])] 2).length + 1 =
      ((["a", "b"] : List String).length + 2).choose 2 :=
  (poly_expand_spec [⟨"a", [Val.num 1]⟩, ⟨"b", [Val.num 2]⟩, ⟨"z", [Val.str "w"]⟩]
    ["a", "b"] 2 1 2 [⟨"a", [Val.num 1]⟩, ⟨"b", [Val.num 2]⟩]
    [("a", [(1 : ℚ)]), ("b", [(2 : ℚ)])] (by decide) (by decide) (by decide)
    (by decide) (by decide)).2.1

/-! ### Claim C10: only the declared numeric columns are scaled/expanded -/

theorem append_underscore_ne (cat n : String)
    (hne : n.data.take (cat.data.length + 1) ≠ cat.data ++ ['_'])
    (v : String) : cat ++ "_" ++ v ≠ n := by
  intro h
  apply hne
  have hd : cat.data ++ ('_' :: v.data) = n.data := by
    have h2 := congrArg String.data h
    simpa using h2
  have hsplit : cat.data ++ ('_' :: v.data) = (cat.data ++ ['_']) ++ v.data := by
    simp
  have hlen : (cat.data ++ ['_']).length = cat.data.length + 1 := by
    simp
  rw [← hd, hsplit, ← hlen, List.take_left]

/-- C10: the declared numeric schema has exactly seven columns; the Scaler
and the Expander rewrite only columns on that fixed list, so any column
whose name is not on the list — in particular every indicator column the
Encoder produces from the declared categorical columns, none of whose names
can collide with a declared numeric name — is looked up unchanged after
scaling and after expansion. -/
theorem undeclared_columns_pass_through :
    NUMERIC_COLS.length = 7 ∧
    (∀ (t : Table) (numC : List String)
      (f : List (List Val) → List (List Val)) (name : String) (c : Col)
      (t1 : Table), ¬ name ∈ numC → getCol t name = some c →
      scale_numerics t numC f = .ok t1 → getCol t1 name = some c) ∧
    (∀ (t : Table) (numC : List String) (degree : Int) (name : String)
      (c : Col) (t2 : Table), ¬ name ∈ numC → getCol t name = some c →
      poly_expand t numC degree = .ok t2 → getCol t2 name = some c) ∧
    (∀ cat v, cat ∈ CATEGORICAL_COLS → ¬ (cat ++ "_" ++ v) ∈ NUMERIC_COLS) := by
  refine ⟨rfl, ?_, ?_, ?_⟩
  · intro t numC f name c t1 hn hc h
    exact scale_pass_through hn hc h
  · intro t numC degree name c t2 hn hc h
    exact poly_pass_through hn hc h
  · intro cat v hcat hmem
    simp only [NUMERIC_COLS, List.mem_cons, List.not_mem_nil, or_false] at hmem
    simp only [CATEGORICAL_COLS, List.mem_cons, List.not_mem_nil, or_false]
      at hcat
    rcases hcat with h | h | h | h <;> subst h <;>
      rcases hmem with h2 | h2 | h2 | h2 | h2 | h2 | h2 <;>
      exact append_underscore_ne _ _ (by decide) v h2

/-- Witness for C10 at a concrete table: the column `q`, not on the numeric
list, is unchanged by scaling. -/
theorem undeclared_columns_pass_through_witness :
    getCol [(⟨"p", [Val.num 1]⟩ : Col), ⟨"q", [Val.str "s"]⟩] "q" =
      some ⟨"q", [Val.str "s"]⟩ :=
  undeclared_columns_pass_through.2.1
    [⟨"p", [Val.num 1]⟩, ⟨"q", [Val.str "s"]⟩] ["p"] (fun cols => cols) "q"
    ⟨"q", [Val.str "s"]⟩ [⟨"p", [Val.num 1]⟩, ⟨"q", [Val.str "s"]⟩]
    (by decide) (by decide) (by decide)

/-! ### Claim C1: invalid scaler kind -/

theorem events_clean (l : List Event)
    (h : l = [Event.readBronze] ∨ l = [Event.readBronze, Event.impute] ∨
      l = [Event.readBronze, Event.impute, Event.encode]) :
    Event.scale ∉ l ∧ Event.polyExpand ∉ l ∧ Event.writeSilver ∉ l ∧
      Event.writeArtifacts ∉ l := by
  rcases h with h | h | h <;> subst h <;>
    exact ⟨by decide, by decide, by decide, by decide⟩

theorem run_no_scaler_events {cfg : PreprocessConfig} {bronze : Table}
    {f : ScalerKind → List (List Val) → List (List Val)} {e0 : PError}
    (h5 : make_scaler cfg.scaler = .error e0) :
    Event.scale ∉ (run_preprocess cfg bronze f).2 ∧
    Event.polyExpand ∉ (run_preprocess cfg bronze f).2 ∧
    Event.writeSilver ∉ (run_preprocess cfg bronze f).2 ∧
    Event.writeArtifacts ∉ (run_preprocess cfg bronze f).2 := by
  unfold run_preprocess
  cases h1 : split_target bronze cfg.target_col with
  | error e1 => exact events_clean _ (Or.inl rfl)
  | ok p =>
    obtain ⟨X, y⟩ := p
    dsimp only
    cases h2 : validate_columns X NUMERIC_COLS CATEGORICAL_COLS with
    | error e2 => exact events_clean _ (Or.inl rfl)
    | ok u =>
      cases u
      dsimp only
      cases h3 : impute_numerics X NUMERIC_COLS with
      | error e3 => exact events_clean _ (Or.inr (Or.inl rfl))
      | ok X1 =>
        dsimp only
        cases h4 : one_hot_encode X1 CATEGORICAL_COLS with
        | error e4 => exact events_clean _ (Or.inr (Or.inr rfl))
        | ok X2 =>
          dsimp only
          rw [h5]
          exact events_clean _ (Or.inr (Or.inr rfl))

/-- C1 counterexample: with scaler kind "robust" on a well-formed one-row
bronze table, the run does fail with the scaler `ValueError` (the spec's
`ConfigError`), but only after the bronze table has been read, imputed and
encoded — the recorded trace refutes "before any data is touched: no table
is read, transformed, or written". -/
theorem invalid_scaler_reads_before_reject :
    run_preprocess cfgRobust bronzeW fId =
      (.error (.scalerKindError "robust"), [.readBronze, .impute, .encode]) ∧
    cfgRobust.scaler ≠ "standard" ∧ cfgRobust.scaler ≠ "minmax" ∧
    Event.readBronze ∈ (run_preprocess cfgRobust bronzeW fId).2 ∧
    Event.impute ∈ (run_preprocess cfgRobust bronzeW fId).2 ∧
    Event.encode ∈ (run_preprocess cfgRobust bronzeW fId).2 := by decide

/-- C1 amended: a configuration whose scaler kind is neither "standard" nor
"minmax" can never produce a Silver table — the run always fails, nothing is
scaled, expanded or written — and whenever the stages before scaler
construction succeed, the failure is precisely the scaler `ConfigError`; the
bronze table is, however, read (and imputed and encoded) before the invalid
kind is rejected, as the recorded trace shows. -/
theorem invalid_scaler_fails_after_reading (cfg : PreprocessConfig)
    (bronze : Table) (f : ScalerKind → List (List Val) → List (List Val))
    (h1 : cfg.scaler ≠ "standard") (h2 : cfg.scaler ≠ "minmax") :
    (∀ t, (run_preprocess cfg bronze f).1 ≠ .ok t) ∧
    Event.scale ∉ (run_preprocess cfg bronze f).2 ∧
    Event.polyExpand ∉ (run_preprocess cfg bronze f).2 ∧
    Event.writeSilver ∉ (run_preprocess cfg bronze f).2 ∧
    Event.writeArtifacts ∉ (run_preprocess cfg bronze f).2 ∧
    (∀ X y X1 X2, split_target bronze cfg.target_col = .ok (X, y) →
      validate_columns X NUMERIC_COLS CATEGORICAL_COLS = .ok () →
      impute_numerics X NUMERIC_COLS = .ok X1 →
      one_hot_encode X1 CATEGORICAL_COLS = .ok X2 →
      run_preprocess cfg bronze f =
        (.error (.scalerKindError cfg.scaler),
         [.readBronze, .impute, .encode])) := by
  have hms : make_scaler cfg.scaler = .error (.scalerKindError cfg.scaler) :=
    make_scaler_invalid h1 h2
  obtain ⟨hs, hp, hw, ha⟩ := @run_no_scaler_events cfg bronze f _ hms
  refine ⟨?_, hs, hp, hw, ha, ?_⟩
  · intro t hok
    have hpair : run_preprocess cfg bronze f =
        (.ok t, (run_preprocess cfg bronze f).2) := Prod.ext hok rfl
    obtain ⟨X, y, X1, X2, kind, X3, X4, -, -, -, -, hmk, -, -, -⟩ :=
      run_ok_inv hpair
    rw [hms] at hmk
    cases hmk
  · intro X y X1 X2 hsp hv hi he
    exact run_scaler_error_eq hsp hv hi he hms

/-- Witness for C1 at a concrete input: with the unsupported kind "maxabs"
on the one-row bronze table, the run is exactly the scaler failure after
read, impute and encode. -/
theorem invalid_scaler_fails_after_reading_witness :
    run_preprocess cfgMaxabs bronzeW fId =
      (.error (.scalerKindError "maxabs"), [.readBronze, .impute, .encode]) :=
  (invalid_scaler_fails_after_reading cfgMaxabs bronzeW fId (by decide)
    (by decide)).2.2.2.2.2 featW [Val.num 1] featW (NUMERIC_COLS.map rowNum)
    (by decide) (by decide) (by decide) (by decide)

/-! ### Claim C8: non-positive expansion degree -/

/-- C8: with `poly_degree` zero or negative the pipeline can never produce
an expanded table — the run always fails and neither the Silver output nor
any artifact is written — and whenever every stage before expansion
succeeds, the failure is precisely the degree `ConfigError` raised by the
expander. -/
theorem nonpositive_degree_fails (cfg : PreprocessConfig) (bronze : Table)
    (f : ScalerKind → List (List Val) → List (List Val))
    (hd : cfg.poly_degree ≤ 0) :
    (∀ t, (run_preprocess cfg bronze f).1 ≠ .ok t) ∧
    Event.writeSilver ∉ (run_preprocess cfg bronze f).2 ∧
    Event.writeArtifacts ∉ (run_preprocess cfg bronze f).2 ∧
    (∀ X y X1 X2 kind X3, split_target bronze cfg.target_col = .ok (X, y) →
      validate_columns X NUMERIC_COLS CATEGORICAL_COLS = .ok () →
      impute_numerics X NUMERIC_COLS = .ok X1 →
      one_hot_encode X1 CATEGORICAL_COLS = .ok X2 →
      make_scaler cfg.scaler = .ok kind →
      scale_numerics X2 NUMERIC_COLS (f kind) = .ok X3 →
      run_preprocess cfg bronze f =
        (.error (.degreeError cfg.poly_degree),
         [.readBronze, .impute, .encode, .scale, .polyExpand])) := by
  have hnever : ∀ t, (run_preprocess cfg bronze f).1 ≠ .ok t := by
    intro t hok
    have hpair : run_preprocess cfg bronze f =
        (.ok t, (run_preprocess cfg bronze f).2) := Prod.ext hok rfl
    obtain ⟨X, y, X1, X2, kind, X3, X4, -, -, -, -, -, -, hpoly, -⟩ :=
      run_ok_inv hpair
    rw [poly_expand_nonpos hd] at hpoly
    cases hpoly
  have hnw : Event.writeSilver ∉ (run_preprocess cfg bronze f).2 ∧
      Event.writeArtifacts ∉ (run_preprocess cfg bronze f).2 := by
    cases hres : (run_preprocess cfg bronze f).1 with
    | ok t => exact absurd hres (hnever t)
    | error e => exact run_error_no_write hres
  refine ⟨hnever, hnw.1, hnw.2, ?_⟩
  intro X y X1 X2 kind X3 hsp hv hi he hmk hsc
  exact run_poly_error_eq hsp hv hi he hmk hsc (poly_expand_nonpos hd)

/-- Witness for C8 at a concrete input: degree 0 on the one-row bronze
table fails with the degree error after read, impute, encode and scale. -/
theorem nonpositive_degree_fails_witness :
    run_preprocess cfgZero bronzeW fId =
      (.error (.degreeError 0),
       [.readBronze, .impute, .encode, .scale, .polyExpand]) :=
  (nonpositive_degree_fails cfgZero bronzeW fId (by decide)).2.2.2 featW
    [Val.num 1] featW (NUMERIC_COLS.map rowNum) ScalerKind.standard
    (NUMERIC_COLS.map rowNum) (by decide) (by decide) (by decide) (by decide)
    (by decide) (by decide)

/-! ### Claim C9: missing declared column -/

/-- C9 counterexample: on a bronze table that lacks the declared column
`loan_grade` but whose target column contains a missing cell, the pipeline
fails at the target cast — a `ValueError`, not the Validator's
`SchemaError` — because `split_target` runs `astype(int)` before
`validate_columns`; so "raises SchemaError" does not hold for every table
missing a declared column. -/
theorem missing_column_with_bad_target_not_schema_error :
    hasCol bronzeNoGrade "loan_grade" = false ∧
    "loan_grade" ∈ CATEGORICAL_COLS ∧
    run_preprocess cfgD bronzeNoGrade fId =
      (.error .intCastError, [.readBronze]) ∧
    isSchemaMissing PError.intCastError = false := by decide

/-- C9 amended: provided the target column splits off cleanly, a bronze
table missing any declared numeric or categorical column makes the run fail
with the Validator's `SchemaError` naming the missing column, with the
trace showing that no imputation, encoding, scaling, expansion or write was
ever started; and on any failure whatsoever, nothing is written to the
Silver output or the artifact store. -/
theorem missing_column_schema_error_before_transform (cfg : PreprocessConfig)
    (bronze : Table) (f : ScalerKind → List (List Val) → List (List Val))
    (col : String) (hcol : col ∈ NUMERIC_COLS ∨ col ∈ CATEGORICAL_COLS)
    (hmiss : hasCol bronze col = false) :
    (∀ X y, split_target bronze cfg.target_col = .ok (X, y) →
      run_preprocess cfg bronze f =
        (.error (.schemaMissing
          (NUMERIC_COLS.filter (fun n => !(hasCol X n)))
          (CATEGORICAL_COLS.filter (fun n => !(hasCol X n)))),
         [.readBronze]) ∧
      (col ∈ NUMERIC_COLS.filter (fun n => !(hasCol X n)) ∨
        col ∈ CATEGORICAL_COLS.filter (fun n => !(hasCol X n))) ∧
      Event.impute ∉ (run_preprocess cfg bronze f).2 ∧
      Event.encode ∉ (run_preprocess cfg bronze f).2 ∧
      Event.scale ∉ (run_preprocess cfg bronze f).2 ∧
      Event.polyExpand ∉ (run_preprocess cfg bronze f).2 ∧
      Event.writeSilver ∉ (run_preprocess cfg bronze f).2 ∧
      Event.writeArtifacts ∉ (run_preprocess cfg bronze f).2) ∧
    (∀ e, (run_preprocess cfg bronze f).1 = .error e →
      Event.writeSilver ∉ (run_preprocess cfg bronze f).2 ∧
      Event.writeArtifacts ∉ (run_preprocess cfg bronze f).2) := by
  constructor
  · intro X y hsp
    obtain ⟨c, hfind, hy, hX⟩ := split_ok_inv hsp
    have hmissX : hasCol X col = false := by
      rw [hX]
      exact hasCol_filter_false _ hmiss
    have hin : col ∈ NUMERIC_COLS.filter (fun n => !(hasCol X n)) ∨
        col ∈ CATEGORICAL_COLS.filter (fun n => !(hasCol X n)) := by
      rcases hcol with h | h
      · exact Or.inl (List.mem_filter.mpr ⟨h, by rw [hmissX]; rfl⟩)
      · exact Or.inr (List.mem_filter.mpr ⟨h, by rw [hmissX]; rfl⟩)
    have hval : validate_columns X NUMERIC_COLS CATEGORICAL_COLS =
        .error (.schemaMissing
          (NUMERIC_COLS.filter (fun n => !(hasCol X n)))
          (CATEGORICAL_COLS.filter (fun n => !(hasCol X n)))) := by
      apply validate_error_of_missing
      intro ⟨h1, h2⟩
      rcases hin with h | h
      · rw [h1] at h; cases h
      · rw [h2] at h; cases h
    have hrun := @run_validate_error_eq cfg bronze f X y _ hsp hval
    refine ⟨hrun, hin, ?_, ?_, ?_, ?_, ?_, ?_⟩ <;> rw [hrun] <;> simp
  · intro e he
    exact run_error_no_write he

/-- Witness for C9 at a concrete input: a bronze table lacking `loan_grade`
with a clean integer target fails with the schema error naming exactly
`loan_grade`, before any transformation event. -/
theorem missing_column_schema_error_before_transform_witness :
    run_preprocess cfgD bronzeNoGrade2 fId =
      (.error (.schemaMissing [] ["loan_grade"]), [.readBronze]) := by
  have h := (missing_column_schema_error_before_transform cfgD bronzeNoGrade2
    fId "loan_grade" (Or.inr (by decide)) (by decide)).1
    (NUMERIC_COLS.map rowNum ++
      [rowCat "person_home_ownership", rowCat "loan_intent",
       rowCat "cb_person_default_on_file"])
    [Val.num 0] (by decide)
  exact h.1

/-! ### Claim C4: the reattached target -/

theorem truncQ_int (i : Int) : truncQ ((i : ℚ)) = i := by
  unfold truncQ
  rw [Rat.num_intCast, Rat.den_intCast]
  exact Int.tdiv_one i

theorem castVal_int_vals : ∀ {vs ys : List Val},
    mapE castVal vs = .ok ys →
    (∀ v ∈ vs, ∃ i : Int, v = Val.num ((i : ℚ))) → ys = vs := by
  intro vs ys h hint
  have h2 := mapE_ok_iff.mp h
  induction h2 with
  | nil => rfl
  | cons hxy htail ih =>
    rename_i x y xs ys2
    obtain ⟨i, hi⟩ := hint x (List.mem_cons_self _ _)
    subst hi
    have hx : castVal (Val.num ((i : ℚ))) = .ok (Val.num ((i : ℚ))) := by
      show Except.ok (Val.num ((truncQ ((i : ℚ)) : Int) : ℚ)) = _
      rw [truncQ_int]
    rw [hx] at hxy
    have hy : y = Val.num ((i : ℚ)) := (Except.ok.inj hxy).symm
    rw [hy, ih (mapE_ok_iff.mpr htail)
      (fun v hv => hint v (List.mem_cons_of_mem _ hv))]

/-- C4 counterexample: a bronze table whose target cell holds the
non-integer value 1/2 runs through the pipeline successfully, yet the
reattached target cell is the truncation 0, not the input value —
`split_target` casts the target with `astype(int)` before reattaching it,
so the output target is not always "unchanged from the input". -/
theorem target_column_cast_changes_values :
    (run_preprocess cfgW bronzeHalf fId).1 =
      .ok (NUMERIC_COLS.map rowNum ++ [⟨"loan_status", [Val.num 0]⟩]) ∧
    getCol bronzeHalf "loan_status" =
      some ⟨"loan_status", [Val.num (Rat.mk' 1 2)]⟩ ∧
    Val.num 0 ≠ Val.num (Rat.mk' 1 2) := by decide

/-- C4 amended: on every successful run (over a table with uniform row
count and a shape-preserving scaler model), the reattached target column
equals the elementwise `astype(int)` cast of the input target — hence it is
unchanged whenever every input target value is an integer — and the output
table has exactly the input's row count in every column. -/
theorem pipeline_preserves_cast_target_and_rows (cfg : PreprocessConfig)
    (bronze : Table) (f : ScalerKind → List (List Val) → List (List Val))
    (n : Nat) (silver : Table) (evs : List Event)
    (hf : ∀ kind cols, (∀ vs ∈ cols, vs.length = n) →
      ∀ vs ∈ f kind cols, vs.length = n)
    (hwf : WF n bronze)
    (h : run_preprocess cfg bronze f = (.ok silver, evs)) :
    ∃ c y, getCol bronze cfg.target_col = some c ∧
      mapE castVal c.values = .ok y ∧
      getCol silver cfg.target_col = some ⟨cfg.target_col, y⟩ ∧
      ((∀ v ∈ c.values, ∃ i : Int, v = Val.num ((i : ℚ))) → y = c.values) ∧
      WF n silver := by
  obtain ⟨X, y, X1, X2, kind, X3, X4, hsp, hv, hi, he, hmk, hsc, hpoly,
    hsilver⟩ := run_ok_inv h
  obtain ⟨c, hfind, hy, hX⟩ := split_ok_inv hsp
  have hwfX : WF n X ∧ y.length = n := split_WF hwf hsp
  have hwf1 : WF n X1 := impute_WF hwfX.1 hi
  have hwf2 : WF n X2 := encode_WF hwf1 he
  have hwf3 : WF n X3 := by
    apply scale_WF hwf2 ?_ hsc
    cases hx : extractCols X2 NUMERIC_COLS with
    | error e =>
      obtain ⟨sub, hsub, -⟩ := scale_ok_inv hsc
      rw [hx] at hsub
      cases hsub
    | ok sub =>
      intro vs hvs
      refine hf kind (sub.map (fun c => c.values)) ?_ vs ?_
      · intro vs2 hvs2
        obtain ⟨c2, hc2, hceq⟩ := List.mem_map.mp hvs2
        subst hceq
        exact hwf2 c2 (extractCols_mem hx c2 hc2)
      · simpa using hvs
  have hwf4 : WF n X4 := by
    obtain ⟨-, sub, subQ, hsub, hq, hX4⟩ := poly_ok_inv hpoly
    subst hX4
    apply WF_append (WF_filter _ hwf3)
    apply polyColsOf_WF
    intro p hp
    obtain ⟨c2, hc2, hcp⟩ := mapE_mem_of_ok hq p hp
    rw [colQs_length hcp]
    exact hwf3 c2 (extractCols_mem hsub c2 hc2)
  refine ⟨c, y, hfind, hy, ?_, ?_, ?_⟩
  · rw [hsilver]
    exact setCol_getCol X4 cfg.target_col y
  · intro hint
    exact castVal_int_vals hy hint
  · rw [hsilver]
    exact setCol_WF hwf4 hwfX.2

/-- Witness for C4 at a concrete one-row bronze table with an integer
target: the run succeeds, the reattached target is the unchanged integer
column, and every output column has one row. -/
theorem pipeline_preserves_cast_target_and_rows_witness :
    getCol (NUMERIC_COLS.map rowNum ++ [⟨"loan_status", [Val.num 1]⟩])
      "loan_status" = some ⟨"loan_status", [Val.num 1]⟩ ∧
    WF 1 (NUMERIC_COLS.map rowNum ++ [⟨"loan_status", [Val.num 1]⟩]) := by
  obtain ⟨c, y, hc, hy, hget, hint, hwfs⟩ :=
    pipeline_preserves_cast_target_and_rows cfgW bronzeW fId 1
      (NUMERIC_COLS.map rowNum ++ [⟨"loan_status", [Val.num 1]⟩])
      [.readBronze, .impute, .encode, .scale, .polyExpand, .writeSilver]
      (fun kind cols h => h) (by decide) (by decide)
  have hct : cfgW.target_col = "loan_status" := rfl
  rw [hct] at hc hget
  have hcv : getCol bronzeW "loan_status" =
      some ⟨"loan_status", [Val.num 1]⟩ := by decide
  rw [hcv] at hc
  cases hc
  have hyv : mapE castVal [Val.num 1] = .ok [Val.num 1] := by decide
  rw [hyv] at hy
  cases hy
  exact ⟨hget, hwfs⟩
